import Mathlib

set_option maxHeartbeats 1000000
set_option maxRecDepth 4000

namespace BgtSpec

/-!
Shallow embedding of the core of the bgt genotype-query engine
(src/bgt.c, src/atomic.c, src/vcf.h).  Strings are modelled as
List Char, machine bytes as Nat (reduced mod 256 where the C type is
uint8_t), C int32 values as Int.  Functions whose C originals live in
files absent from src/ (vcf.c, kexpr.c, fmf.c) are modelled from the
spec and say so in their doc comments.
-/

/-! ## C ctype helpers (ctype.h, C locale) -/

/-- C-locale isdigit on an ASCII character. -/
def cIsDigit (c : Char) : Bool := decide (48 ≤ c.toNat ∧ c.toNat ≤ 57)

/-- C-locale isalpha on an ASCII character. -/
def cIsAlpha (c : Char) : Bool :=
  decide ((65 ≤ c.toNat ∧ c.toNat ≤ 90) ∨ (97 ≤ c.toNat ∧ c.toNat ≤ 122))

/-- C-locale toupper on an ASCII character. -/
def cToUpper (c : Char) : Char :=
  if 97 ≤ c.toNat ∧ c.toNat ≤ 122 then Char.ofNat (c.toNat - 32) else c

/-! ## Genotype byte table and GT re-encoding (bgt.c, bgt_bits2gt and bgt_gen_gt) -/

/-- The table bgt_bits2gt of bgt.c line 184, indexed by the two-bit
haplotype code plane1*2+plane0. -/
def bgt_bits2gt : List Nat := [(0+1) <<< 1, (1+1) <<< 1, 0 <<< 1, (2+1) <<< 1]

/-- bgt_gen_gt of bgt.c: the per-sample GT bytes written into the indiv
buffer for m samples, computed from the two genotype planes a0, a1
(each one byte in 0..1 per haplotype). -/
def bgt_gen_gt (m : Nat) (a0 a1 : List Nat) : List Nat :=
  (List.range (m <<< 1)).map fun i =>
    bgt_bits2gt.getD ((a1.getD i 0) <<< 1 ||| a0.getD i 0) 0

/-- The tail of bgtm_read_core: GT re-encoding runs only when the
BGT_F_NO_GT flag is clear (bgt.c lines 471-472). -/
def bgtm_gen_gt (noGT : Bool) (m : Nat) (a0 a1 : List Nat) : Option (List Nat) :=
  if noGT then none else some (bgt_gen_gt m a0 a1)

theorem getD_map_range (n i : Nat) (h : i < n) (f : Nat → Nat) (d : Nat) :
    ((List.range n).map f).getD i d = f i := by
  rw [List.getD_eq_getElem _ _ (by simpa using h)]
  simp

/-! ## Sample groups (bgt.c, bgt_add_group_core / bgt_add_group) -/

/-- BGT_MAX_GROUPS from bgt.h (8 groups, used for the AC1..AC8/AN1..AN8
header lines of bgtm_prepare). -/
def BGT_MAX_GROUPS : Nat := 8

/-- Mutable group state of one bgt_t reader: the per-sample 8-bit
membership masks (the flag array) and the group counter n_groups. -/
structure GState where
  flags : List Nat
  n_groups : Nat
deriving DecidableEq

/-- Selector argument triple (n, samples, expr) of bgt_add_group_core:
either the BGT_SET_ALL_SAMPLES sentinel, or a sample-name list plus an
optional expression string. -/
inductive GSel where
  | allSamples
  | bySet (names : List String) (expr : Option String)

/-- Modelled from the spec: ke_parse of kexpr.c is not under src/.  Per
section 6.7 the sentinel "?" is the unrestricted expression matching
every sample row; any other string is an external sample-metadata
expression, and one that does not compile is treated as no expression
(section 9), modelled here as matching no row. -/
def keParse (s : String) : Option (Nat → Bool) :=
  if s = "?" then some (fun _ => true) else none

/-- The membership test of the flag loop in bgt_add_group_core: the row
name is in the hash of listed samples, or the parsed expression accepts
the row (fmf_test, modelled through keParse). -/
def rowMatch (names : List String) (ke : Option (Nat → Bool)) (rows : List String)
    (i : Nat) : Bool :=
  names.contains (rows.getD i "") ||
    (match ke with
     | some p => p i
     | none => false)

/-- bgt_add_group_core of bgt.c lines 80-111.  rows is the sample table
f->rows (names only).  The mask store is uint8_t, so the bit-or result
is reduced mod 256; the group counter is always incremented. -/
def bgt_add_group_core (rows : List String) (st : GState) (sel : GSel) : GState :=
  match sel with
  | .allSamples =>
    ⟨st.flags.map fun f => (f ||| (1 <<< st.n_groups)) % 256, st.n_groups + 1⟩
  | .bySet names expr =>
    if names.length > 0 ∨ expr.isSome then
      let ke := expr.bind keParse
      ⟨(List.range st.flags.length).map fun i =>
          if rowMatch names ke rows i then
            (st.flags.getD i 0 ||| (1 <<< st.n_groups)) % 256
          else st.flags.getD i 0,
        st.n_groups + 1⟩
    else ⟨st.flags, st.n_groups + 1⟩

/-- bgt_add_group of bgt.c lines 113-129 applied to the selector "?":
the string does not begin with a colon and the guard also routes "?"
away from the file branch, so the core is called with n=0, samples=0
and expr="?". -/
def bgt_add_group_q (rows : List String) (st : GState) : GState :=
  bgt_add_group_core rows st (.bySet [] (some "?"))

/-! ## Single-file record pull (bgt.c, bgt_read_core0 / bgt_read_core / bgt_read_rec) -/

/-- One record of the site stream as bgt_read_core0 sees it: the
recovered row index (INFO _row) and its coordinate fields. -/
structure SiteR where
  row : Nat
  rid : Nat
  pos : Nat
  rlen : Nat
deriving DecidableEq

/-- The part of the bgt_t reader state that bgt_read_rec touches: the
output sample count fixed by bgt_prepare, the remaining site-stream
records (already restricted to the region), the optional interval
filter with its exclude flag, and the genotype-matrix cursor plus a
count of pbf_read calls performed. -/
structure BgtR where
  n_out : Nat
  sites : List SiteR
  bed : Option (SiteR → Bool)
  bedExcl : Bool
  pbRow : Nat
  pbReads : Nat

/-- bgt_read_core0: pull the next record off the site stream. -/
def bgt_read_core0 (sites : List SiteR) : Option (SiteR × List SiteR) :=
  match sites with
  | [] => none
  | s :: rest => some (s, rest)

/-- bgt_read_core: like bgt_read_core0, but with an interval filter
installed it keeps skipping records until one matches the filter mode
(bgt.c lines 218-231). -/
def bgt_read_core : Option (SiteR → Bool) → Bool → List SiteR → Option (SiteR × List SiteR)
  | none, _, sites => bgt_read_core0 sites
  | some ov, excl, sites =>
    match sites with
    | [] => none
    | s :: rest =>
      if (excl && ov s) || (!excl && !ov s) then bgt_read_core (some ov) excl rest
      else some (s, rest)

/-- bgt_read_rec of bgt.c lines 233-245: with an empty output subset it
returns EOF at once; otherwise it pulls a record, seeks the genotype
matrix to its row and reads the two planes (gmat models pbf_read). -/
def bgt_read_rec (st : BgtR) (gmat : Nat → List Nat × List Nat) :
    Option (SiteR × (List Nat × List Nat)) × BgtR :=
  if st.n_out = 0 then (none, st)
  else
    match bgt_read_core st.bed st.bedExcl st.sites with
    | none => (none, { st with sites := [] })
    | some (s, rest) =>
      (some (s, gmat s.row),
       { st with sites := rest, pbRow := s.row, pbReads := st.pbReads + 1 })

/-- The output-subset size computed by bgt_prepare from the membership
masks (the count of samples with any group bit set). -/
def bgt_n_out (flags : List Nat) : Nat := (flags.filter fun f => f != 0).length

/-! ## Theorems for claims C2, C4, C7, C10 -/

/-- C2: evaluation at the failing input.  With 8 groups already
declared (n_groups = 8), a further add_group call does not fail: it
returns normally, increments the group counter to 9, and leaves every
membership mask unchanged because the bit 1<<8 is truncated away by the
8-bit mask store.  Shown here both for the all-samples selector and for
the "?" selector on a two-sample file. -/
theorem C2_ninth_group_no_error :
    bgt_add_group_core ["S1", "S2"] ⟨[5, 0], 8⟩ .allSamples = ⟨[5, 0], 9⟩ ∧
    bgt_add_group_q ["S1", "S2"] ⟨[5, 0], 8⟩ = ⟨[5, 0], 9⟩ := by
  constructor <;> rfl

/-- C4 counterexample: the fixed table bgt_bits2gt maps the missing
two-bit code (plane1=1, plane0=0, index 2) to the genotype byte 0, not
to 2<<1 as the claim states.  Concretely, one sample whose single
haplotype pair decodes to (missing, ref) is re-encoded as bytes [0, 2]. -/
theorem C4_missing_byte_counterexample :
    bgt_gen_gt 1 [0, 0] [1, 0] = [0, 2] ∧ bgt_bits2gt.getD 2 0 = 0 ∧
      bgt_bits2gt.getD 2 0 ≠ 2 <<< 1 := by
  refine ⟨rfl, rfl, by decide⟩

/-- C4 amended: when NO_GT is clear, the output GT bytes are exactly the
two-bit codes (plane1 shifted left by one, or-ed with plane0) mapped
through bgt_bits2gt, in which the missing code maps to the byte 0 and
the ALT2 code maps to the byte 3<<1. -/
theorem C4_gen_gt_table (noGT : Bool) (m : Nat) (a0 a1 : List Nat)
    (h : noGT = false) :
    bgtm_gen_gt noGT m a0 a1 = some (bgt_gen_gt m a0 a1) ∧
    (∀ i, i < m <<< 1 →
      (bgt_gen_gt m a0 a1).getD i 0 =
        bgt_bits2gt.getD ((a1.getD i 0) <<< 1 ||| a0.getD i 0) 0) ∧
    bgt_bits2gt.getD 2 0 = 0 ∧ bgt_bits2gt.getD 3 0 = 3 <<< 1 := by
  subst h
  refine ⟨rfl, ?_, rfl, rfl⟩
  intro i hi
  unfold bgt_gen_gt
  rw [getD_map_range _ _ hi]

/-- C4 witness: the amended theorem applied to a concrete two-sample
reader state. -/
theorem C4_gen_gt_table_witness :
    bgtm_gen_gt false 2 [0, 1, 0, 1] [0, 0, 1, 1] =
        some (bgt_gen_gt 2 [0, 1, 0, 1] [0, 0, 1, 1]) ∧
    (bgt_gen_gt 2 [0, 1, 0, 1] [0, 0, 1, 1]).getD 3 0 =
        bgt_bits2gt.getD (((([0, 0, 1, 1] : List Nat).getD 3 0)) <<< 1 |||
          ([0, 1, 0, 1] : List Nat).getD 3 0) 0 := by
  exact ⟨(C4_gen_gt_table false 2 [0, 1, 0, 1] [0, 0, 1, 1] rfl).1,
    (C4_gen_gt_table false 2 [0, 1, 0, 1] [0, 0, 1, 1] rfl).2.1 3 (by decide)⟩

/-- C7: add_group with the selector "?" routes to the core with the
unrestricted expression, so after the call every sample of the file has
the newly assigned group bit set in its membership mask (the bit index
being the previous group count, which must still be below 8 for the
8-bit mask to hold it). -/
theorem C7_question_selects_all (rows : List String) (flags : List Nat) (ng : Nat)
    (hng : ng < 8) :
    (bgt_add_group_q rows ⟨flags, ng⟩).n_groups = ng + 1 ∧
    ∀ i, i < flags.length →
      Nat.testBit ((bgt_add_group_q rows ⟨flags, ng⟩).flags.getD i 0) ng = true := by
  have hexp : bgt_add_group_q rows ⟨flags, ng⟩ =
      ⟨(List.range flags.length).map fun i =>
          (flags.getD i 0 ||| (1 <<< ng)) % 256, ng + 1⟩ := by
    simp [bgt_add_group_q, bgt_add_group_core, rowMatch, keParse]
  rw [hexp]
  refine ⟨rfl, ?_⟩
  intro i hi
  have hfl : (GState.mk ((List.range flags.length).map fun i =>
      (flags.getD i 0 ||| (1 <<< ng)) % 256) (ng + 1)).flags =
      (List.range flags.length).map fun i => (flags.getD i 0 ||| (1 <<< ng)) % 256 := rfl
  rw [hfl, getD_map_range _ _ hi]
  have h256 : (256 : Nat) = 2 ^ 8 := by norm_num
  rw [h256, Nat.testBit_mod_two_pow]
  simp only [Nat.testBit_or, Nat.shiftLeft_eq, one_mul, Nat.testBit_two_pow_self]
  simp [hng]

/-- C7 witness: on a three-sample file with two groups already
declared, the "?" selector sets bit 2 for every sample. -/
theorem C7_question_selects_all_witness :
    (bgt_add_group_q ["A", "B", "C"] ⟨[1, 0, 2], 2⟩).n_groups = 2 + 1 ∧
    ∀ i, i < ([1, 0, 2] : List Nat).length →
      Nat.testBit ((bgt_add_group_q ["A", "B", "C"] ⟨[1, 0, 2], 2⟩).flags.getD i 0) 2 = true :=
  C7_question_selects_all ["A", "B", "C"] [1, 0, 2] 2 (by decide)

/-- C10: a prepared reader whose finalized output subset is empty (no
sample carries any group bit, so bgt_prepare counts n_out = 0) returns
EOF from bgt_read_rec immediately and untouched: no site-stream record
is consumed and the genotype matrix is neither sought nor read, however
many records remain. -/
theorem C10_empty_subset_eof (flags : List Nat) (st : BgtR)
    (gmat : Nat → List Nat × List Nat)
    (hprep : st.n_out = bgt_n_out flags) (hflags : ∀ f ∈ flags, f = 0) :
    bgt_read_rec st gmat = (none, st) := by
  have hz : bgt_n_out flags = 0 := by
    unfold bgt_n_out
    rw [List.length_eq_zero]
    rw [List.filter_eq_nil_iff]
    intro a ha
    simpa using hflags a ha
  unfold bgt_read_rec
  rw [hprep, hz]
  rfl

/-- C10 witness: a reader over three pending records with all-zero
masks returns EOF without consuming anything. -/
theorem C10_empty_subset_eof_witness :
    bgt_read_rec ⟨bgt_n_out [0, 0], [⟨0, 0, 10, 1⟩, ⟨1, 0, 11, 1⟩, ⟨2, 0, 12, 1⟩],
        none, false, 0, 0⟩ (fun _ => ([], [])) =
      (none, ⟨bgt_n_out [0, 0], [⟨0, 0, 10, 1⟩, ⟨1, 0, 11, 1⟩, ⟨2, 0, 12, 1⟩],
        none, false, 0, 0⟩) :=
  C10_empty_subset_eof [0, 0] _ _ rfl (by decide)

/-! ## Typed integer codec (vcf.h, bcf_enc_size / bcf_enc_int1 / bcf_dec_typed_int1) -/

/-- Type tag BCF_BT_INT8. -/
def BCF_BT_INT8 : Nat := 1

/-- Type tag BCF_BT_INT16. -/
def BCF_BT_INT16 : Nat := 2

/-- Type tag BCF_BT_INT32. -/
def BCF_BT_INT32 : Nat := 3

/-- Little-endian dump of the low w bytes of the two's-complement
representation of x, as kputsn writes an intN value. -/
def toLE (w : Nat) (x : Int) : List Nat :=
  (List.range w).map fun i => ((x % (2 ^ (8 * w))).toNat >>> (8 * i)) % 256

/-- bcf_enc_size of vcf.h lines 260-279: the size-and-type header of a
typed value. -/
def bcf_enc_size (size : Nat) (type : Nat) : List Nat :=
  if 15 ≤ size then
    (15 <<< 4 ||| type) ::
      (if 128 ≤ size then
        (if 32768 ≤ size then (1 <<< 4 ||| BCF_BT_INT32) :: toLE 4 size
         else (1 <<< 4 ||| BCF_BT_INT16) :: toLE 2 size)
       else [1 <<< 4 ||| BCF_BT_INT8, size % 256])
  else [size <<< 4 ||| type]

/-- bcf_enc_int1 of vcf.h lines 288-305: encode one int32 value at the
narrowest integer width; INT32_MIN is stored as the int8 missing byte. -/
def bcf_enc_int1 (x : Int) : List Nat :=
  if x = -2147483648 then bcf_enc_size 1 BCF_BT_INT8 ++ toLE 1 (-128)
  else if x ≤ 127 ∧ -128 < x then bcf_enc_size 1 BCF_BT_INT8 ++ toLE 1 x
  else if x ≤ 32767 ∧ -32768 < x then bcf_enc_size 1 BCF_BT_INT16 ++ toLE 2 x
  else bcf_enc_size 1 BCF_BT_INT32 ++ toLE 4 x

/-- Signed reinterpretation of an unsigned little-endian value of w
bytes (reading the payload back through a signed intN pointer). -/
def sgn (w : Nat) (n : Nat) : Int :=
  if n < 2 ^ (8 * w - 1) then (n : Int) else (n : Int) - 2 ^ (8 * w)

/-- bcf_dec_int1 of vcf.h lines 307-319: decode one integer of the
given type tag, returning the value and the cursor advance; none models
a read past the end of the buffer. -/
def bcf_dec_int1 (p : List Nat) (type : Nat) : Option (Int × Nat) :=
  if type = BCF_BT_INT8 then
    match p with
    | b :: _ => some (sgn 1 b, 1)
    | [] => none
  else if type = BCF_BT_INT16 then
    match p with
    | b0 :: b1 :: _ => some (sgn 2 (b0 + 256 * b1), 2)
    | _ => none
  else
    match p with
    | b0 :: b1 :: b2 :: b3 :: _ =>
      some (sgn 4 (b0 + 256 * b1 + 65536 * b2 + 16777216 * b3), 4)
    | _ => none

/-- bcf_dec_typed_int1 of vcf.h lines 321-324: skip the header byte and
decode with its low nibble; the cursor counts all bytes consumed from
the start of the typed value. -/
def bcf_dec_typed_int1 (p : List Nat) : Option (Int × Nat) :=
  match p with
  | [] => none
  | t :: rest => (bcf_dec_int1 rest (t % 16)).map fun v => (v.1, v.2 + 1)

theorem toLE_one (x : Int) : toLE 1 x = [(x % 256).toNat] := by
  have hlt : (x % 256).toNat < 256 := by omega
  have hr : List.range 1 = [0] := rfl
  simp [toLE, hr, Nat.shiftRight_zero, Nat.mod_eq_of_lt hlt]

theorem toLE_two (x : Int) :
    toLE 2 x = [(x % 65536).toNat % 256, (x % 65536).toNat / 256 % 256] := by
  have hr : List.range 2 = [0, 1] := rfl
  simp [toLE, hr, Nat.shiftRight_eq_div_pow]

theorem toLE_four (x : Int) :
    toLE 4 x = [(x % 4294967296).toNat % 256,
      (x % 4294967296).toNat / 256 % 256,
      (x % 4294967296).toNat / 65536 % 256,
      (x % 4294967296).toNat / 16777216 % 256] := by
  have hr : List.range 4 = [0, 1, 2, 3] := rfl
  simp [toLE, hr, Nat.shiftRight_eq_div_pow]

/-- C5: the single-integer codec round-trips.  For every value in
(INT32_MIN, INT32_MAX], including the int8/int16 missing and
vector-end sentinels, decoding the encoder's output returns the value
with the cursor exactly past the encoding. -/
theorem C5_codec_round_trip (x : Int) (h1 : -2147483648 < x) (h2 : x ≤ 2147483647) :
    bcf_dec_typed_int1 (bcf_enc_int1 x) = some (x, (bcf_enc_int1 x).length) := by
  by_cases h8 : x ≤ 127 ∧ -128 < x
  · have henc : bcf_enc_int1 x = [17, (x % 256).toNat] := by
      unfold bcf_enc_int1 bcf_enc_size
      rw [if_neg (by omega), if_pos h8, if_neg (by norm_num), toLE_one]
      rfl
    rw [henc]
    have : bcf_dec_typed_int1 [17, (x % 256).toNat] =
        some (sgn 1 ((x % 256).toNat), 2) := rfl
    rw [this]
    have hs : sgn 1 ((x % 256).toNat) = x := by
      unfold sgn
      split <;> simp <;> omega
    rw [hs]
    rfl
  · by_cases h16 : x ≤ 32767 ∧ -32768 < x
    · have henc : bcf_enc_int1 x =
          [18, (x % 65536).toNat % 256, (x % 65536).toNat / 256 % 256] := by
        unfold bcf_enc_int1 bcf_enc_size
        rw [if_neg (by omega), if_neg h8, if_pos h16, if_neg (by norm_num), toLE_two]
        rfl
      rw [henc]
      have hd : bcf_dec_typed_int1
          [18, (x % 65536).toNat % 256, (x % 65536).toNat / 256 % 256] =
          some (sgn 2 ((x % 65536).toNat % 256 + 256 * ((x % 65536).toNat / 256 % 256)), 3) := rfl
      rw [hd]
      have hsum : (x % 65536).toNat % 256 + 256 * ((x % 65536).toNat / 256 % 256) =
          (x % 65536).toNat := by omega
      rw [hsum]
      have hs : sgn 2 ((x % 65536).toNat) = x := by
        unfold sgn
        split <;> simp <;> omega
      rw [hs]
      rfl
    · have henc : bcf_enc_int1 x =
          [19, (x % 4294967296).toNat % 256,
            (x % 4294967296).toNat / 256 % 256,
            (x % 4294967296).toNat / 65536 % 256,
            (x % 4294967296).toNat / 16777216 % 256] := by
        unfold bcf_enc_int1 bcf_enc_size
        rw [if_neg (by omega), if_neg h8, if_neg h16, if_neg (by norm_num), toLE_four]
        rfl
      rw [henc]
      have hd : bcf_dec_typed_int1
          [19, (x % 4294967296).toNat % 256,
            (x % 4294967296).toNat / 256 % 256,
            (x % 4294967296).toNat / 65536 % 256,
            (x % 4294967296).toNat / 16777216 % 256] =
          some (sgn 4 ((x % 4294967296).toNat % 256 +
            256 * ((x % 4294967296).toNat / 256 % 256) +
            65536 * ((x % 4294967296).toNat / 65536 % 256) +
            16777216 * ((x % 4294967296).toNat / 16777216 % 256)), 5) := rfl
      rw [hd]
      have hsum : (x % 4294967296).toNat % 256 +
          256 * ((x % 4294967296).toNat / 256 % 256) +
          65536 * ((x % 4294967296).toNat / 65536 % 256) +
          16777216 * ((x % 4294967296).toNat / 16777216 % 256) =
          (x % 4294967296).toNat := by omega
      rw [hsum]
      have hs : sgn 4 ((x % 4294967296).toNat) = x := by
        unfold sgn
        split <;> simp <;> omega
      rw [hs]
      rfl

/-- C5 witness: the round trip at the int16 missing sentinel -32768
(which the narrowest-fit rules store as an int32). -/
theorem C5_codec_round_trip_witness :
    bcf_dec_typed_int1 (bcf_enc_int1 (-32768)) =
      some (-32768, (bcf_enc_int1 (-32768)).length) :=
  C5_codec_round_trip (-32768) (by decide) (by decide)

/-! ## Atomizer CIGAR walk (atomic.c, bcf_atomize) -/

/-- One atom as bcf_add_atom fills it (atomic.c lines 67-84). -/
structure BAtom where
  rid : Nat
  pos : Nat
  rlen : Nat
  anum : Nat
  ref : List Char
  alt : List Char
deriving DecidableEq, Inhabited

/-- One CIGAR operator as the walk of bcf_atomize classifies the
character after each run length: M covers M, = and X; any other
character falls through all branches and is skipped (the walk has no
catch-all). -/
inductive COp where
  | M
  | I
  | D
  | skipped
deriving DecidableEq

/-- The SNV atoms of an M/=/X operator of length l: one atom per offset
j where REF and ALT disagree (atomic.c lines 146-150). -/
def snvAtoms (rid pos : Nat) (ref alt : List Char) (i x y l : Nat) : List BAtom :=
  (List.range l).filterMap fun j =>
    if ref.getD (x + j) 'N' ≠ alt.getD (y + j) 'N' then
      some ⟨rid, pos + x + j, 1, i, [ref.getD (x + j) 'N'], [alt.getD (y + j) 'N']⟩
    else none

/-- The insertion atom of an I operator (atomic.c line 153). -/
def insAtom (rid pos : Nat) (ref alt : List Char) (i x y l : Nat) : BAtom :=
  ⟨rid, pos + x - 1, 1, i, [ref.getD (x - 1) 'N'], (alt.drop (y - 1)).take (l + 1)⟩

/-- The deletion atom of a D operator (atomic.c line 157):
bcf_add_atom(a, rid, pos+x-1, l+1, i, l+1, REF+x-1, 1, ALT+y-1). -/
def delAtom (rid pos : Nat) (ref alt : List Char) (i x y l : Nat) : BAtom :=
  ⟨rid, pos + x - 1, l + 1, i, (ref.drop (x - 1)).take (l + 1), [alt.getD (y - 1) 'N']⟩

/-- The CIGAR walk of bcf_atomize (atomic.c lines 142-160) for ALT
number i, with cursor x over REF and cursor y over ALT; none models the
asserted failure when an I or D operator is reached with x=0 or y=0. -/
def cigarWalk (rid pos : Nat) (ref alt : List Char) (i : Nat) :
    Nat → Nat → List (Nat × COp) → Option (List BAtom)
  | _, _, [] => some []
  | x, y, (l, op) :: ops =>
    match op with
    | .M => (cigarWalk rid pos ref alt i (x + l) (y + l) ops).map
        fun rest => snvAtoms rid pos ref alt i x y l ++ rest
    | .I =>
      if x = 0 ∨ y = 0 then none
      else (cigarWalk rid pos ref alt i x (y + l) ops).map
        fun rest => insAtom rid pos ref alt i x y l :: rest
    | .D =>
      if x = 0 ∨ y = 0 then none
      else (cigarWalk rid pos ref alt i (x + l) y ops).map
        fun rest => delAtom rid pos ref alt i x y l :: rest
    | .skipped => cigarWalk rid pos ref alt i x y ops

/-- C3 counterexample: REF=ACGT, ALT=G at pos 10 has the canonical
CIGAR 1M3D; the walk reaches the D operator at cursors x=1, y=1 and the
deletion atom it emits carries alt = ALT[y-1] = G, not the single
reference character REF[x-1] = A that the claim states. -/
theorem C3_del_alt_counterexample :
    cigarWalk 0 10 ("ACGT".toList) ("G".toList) 1 0 0 [(1, .M), (3, .D)] =
      some [⟨0, 10, 1, 1, ['A'], ['G']⟩, ⟨0, 10, 4, 1, "ACGT".toList, ['G']⟩] ∧
    ("ACGT".toList).getD 0 'N' = 'A' ∧
    (⟨0, 10, 4, 1, "ACGT".toList, ['G']⟩ : BAtom).alt ≠ ['A'] := by
  refine ⟨by decide, rfl, by decide⟩

/-- C3 amended: a D operator of length l reached at cursors (x, y) with
x>0 and y>0 emits exactly one deletion atom with anchor pos+x-1,
rlen = l+1, ref = REF[x-1 .. x-1+l+1], and alt equal to the single
character ALT[y-1] (not REF[x-1]), and then advances x by l. -/
theorem C3_deletion_atom (rid pos : Nat) (ref alt : List Char) (i x y l : Nat)
    (ops : List (Nat × COp)) (res : List BAtom) (hx : 0 < x) (hy : 0 < y)
    (h : cigarWalk rid pos ref alt i x y ((l, .D) :: ops) = some res) :
    ∃ rest, cigarWalk rid pos ref alt i (x + l) y ops = some rest ∧
      res = (⟨rid, pos + x - 1, l + 1, i, (ref.drop (x - 1)).take (l + 1),
        [alt.getD (y - 1) 'N']⟩ : BAtom) :: rest := by
  rw [show cigarWalk rid pos ref alt i x y ((l, .D) :: ops) =
      (if x = 0 ∨ y = 0 then none
       else (cigarWalk rid pos ref alt i (x + l) y ops).map
         fun rest => delAtom rid pos ref alt i x y l :: rest) from rfl] at h
  rw [if_neg (by omega)] at h
  cases hw : cigarWalk rid pos ref alt i (x + l) y ops with
  | none => rw [hw] at h; simp at h
  | some rest =>
    rw [hw] at h
    simp only [Option.map_some'] at h
    refine ⟨rest, rfl, ?_⟩
    rw [← Option.some_inj.mp h]
    rfl

/-- C3 witness: the amended theorem at the spec's anchored-deletion
scenario REF=ACGT, ALT=A, pos=10, D of length 3 at x=1, y=1. -/
theorem C3_deletion_atom_witness :
    ∃ rest, cigarWalk 0 10 ("ACGT".toList) ("A".toList) 1 (1 + 3) 1 [] = some rest ∧
      [(⟨0, 10, 4, 1, "ACGT".toList, ['A']⟩ : BAtom)] =
        (⟨0, 10 + 1 - 1, 3 + 1, 1, (("ACGT".toList).drop (1 - 1)).take (3 + 1),
          [("A".toList).getD (1 - 1) 'N']⟩ : BAtom) :: rest :=
  C3_deletion_atom 0 10 ("ACGT".toList) ("A".toList) 1 1 1 3 [] _
    (by decide) (by decide) (by decide)

/-! ## Atom dedup and genotype rewrite (atomic.c, bcf_atom_gen_at) -/

/-- Modelled from the spec: bcf_atom_cmp lives in atomic.h, which is
not under src/; per the data model an atom's total order is
lexicographic on (rid, pos, rlen, ref, alt), so two atoms compare equal
exactly when this key tuple is equal, which is all bcf_atom_gen_at
tests. -/
def atomKey (a : BAtom) : Nat × Nat × Nat × List Char × List Char :=
  (a.rid, a.pos, a.rlen, a.ref, a.alt)

/-- The eq array of bcf_atom_gen_at (atomic.c lines 27-30): eq[0]=0 and
eq[i] chains i to the head of its run of consecutive key-equal atoms. -/
def eqAt (l : List BAtom) : Nat → Nat
  | 0 => 0
  | i + 1 =>
    if atomKey (l.getD i default) = atomKey (l.getD (i + 1) default) then eqAt l i
    else i + 1

/-- Write tr[m] := v into the translation table. -/
def trUpd (tr : Nat → Nat) (m v : Nat) : Nat → Nat :=
  fun m' => if m' = m then v else tr m'

/-- The loop body of the translation-table scan (atomic.c lines 39-44)
for the representative at index k: a run member stores 1 at its anum,
any other atom whose reference interval [pos, pos+rlen) intersects the
representative's stores 3 at its anum; later iterations overwrite. -/
def trStep (l : List BAtom) (k : Nat) (tr : Nat → Nat) (i : Nat) : Nat → Nat :=
  if eqAt l i = eqAt l k then trUpd tr (l.getD i default).anum 1
  else if (l.getD i default).pos < (l.getD k default).pos + (l.getD k default).rlen ∧
      (l.getD k default).pos < (l.getD i default).pos + (l.getD i default).rlen then
    trUpd tr (l.getD i default).anum 3
  else tr

/-- The translation table of bcf_atom_gen_at lines 32-44 for the
representative atom at index k, starting from all zeroes (ref). -/
def trTab (l : List BAtom) (k : Nat) : Nat → Nat :=
  (List.range l.length).foldl (trStep l k) (fun _ => 0)

/-- The per-haplotype rewrite of atomic.c lines 46-51: the GT byte g
decodes to c = (g>>1)-1, and the emitted code is 2 when c is negative
(missing) and tr[c] otherwise. -/
def genCode (tr : Nat → Nat) (g : Nat) : Nat :=
  if g >>> 1 = 0 then 2 else tr (g >>> 1 - 1)

theorem trStep_fold_inv (l : List BAtom) (k : Nat) (is : List Nat) :
    ∀ tr : Nat → Nat,
      (∀ i ∈ is, i < l.length) →
      (∀ m, tr m = 0 ∨ tr m = 3 ∨ (tr m = 1 ∧ ∃ i, i < l.length ∧
        eqAt l i = eqAt l k ∧ (l.getD i default).anum = m)) →
      ∀ m, (is.foldl (trStep l k) tr) m = 0 ∨ (is.foldl (trStep l k) tr) m = 3 ∨
        ((is.foldl (trStep l k) tr) m = 1 ∧ ∃ i, i < l.length ∧
          eqAt l i = eqAt l k ∧ (l.getD i default).anum = m) := by
  induction is with
  | nil => intro tr _ hP m; exact hP m
  | cons i is ih =>
    intro tr hmem hP m
    have hi : i < l.length := hmem i (by simp)
    refine ih (trStep l k tr i) (fun j hj => hmem j (by simp [hj])) ?_ m
    intro m'
    unfold trStep
    split
    · unfold trUpd
      by_cases hm : m' = (l.getD i default).anum
      · rw [if_pos hm]
        exact Or.inr (Or.inr ⟨rfl, i, hi, by assumption, hm.symm⟩)
      · rw [if_neg hm]; exact hP m'
    · split
      · unfold trUpd
        by_cases hm : m' = (l.getD i default).anum
        · rw [if_pos hm]; exact Or.inr (Or.inl rfl)
        · rw [if_neg hm]; exact hP m'
      · exact hP m'

/-- C6 counterexample: atomizing REF=AC with ALT1=GC, ALT2=G at pos 0
yields the sorted atoms [(0,1,A,G,anum 1), (0,1,A,G,anum 2),
(0,2,AC,G,anum 2)].  The SNV atom of ALT 2 sits in the representative
run of atom 0, yet the deletion atom of the same ALT overlaps the
representative and is scanned later, so tr[2] is overwritten to 3: a
haplotype carrying source allele 2 (GT byte (2+1)<<1 = 6) gets code 3
(overlap), not 1 (alt), although its allele is in the run. -/
def dupRunAtoms : List BAtom :=
  [⟨0, 0, 1, 1, ['A'], ['G']⟩, ⟨0, 0, 1, 2, ['A'], ['G']⟩,
   ⟨0, 0, 2, 2, ['A', 'C'], ['G']⟩]

theorem C6_overlap_overwrites_run_counterexample :
    eqAt dupRunAtoms 1 = eqAt dupRunAtoms 0 ∧
    (dupRunAtoms.getD 1 default).anum = 6 >>> 1 - 1 ∧
    genCode (trTab dupRunAtoms 0) 6 = 3 ∧
    genCode (trTab dupRunAtoms 0) 6 ≠ 1 := by
  refine ⟨by decide, by decide, by decide, by decide⟩

/-- C6 amended: for every atom list, representative index and GT byte,
the emitted code is one of 0 (ref), 1 (alt), 2 (missing), 3 (overlap);
and if it is 1 then the haplotype's original allele index is the anum
of some atom in the representative's duplicate run.  The converse
implication fails (see the counterexample): a source ALT in the run is
reported as overlap when a later-sorted atom of the same ALT overlaps
the representative. -/
theorem C6_genotype_codes (l : List BAtom) (k : Nat) (g : Nat) :
    (genCode (trTab l k) g = 0 ∨ genCode (trTab l k) g = 1 ∨
      genCode (trTab l k) g = 2 ∨ genCode (trTab l k) g = 3) ∧
    (genCode (trTab l k) g = 1 →
      1 ≤ g >>> 1 ∧ ∃ i, i < l.length ∧ eqAt l i = eqAt l k ∧
        (l.getD i default).anum = g >>> 1 - 1) := by
  have hinv := trStep_fold_inv l k (List.range l.length) (fun _ => 0)
    (fun i hi => List.mem_range.mp hi) (fun m => Or.inl rfl)
  constructor
  · unfold genCode
    split
    · exact Or.inr (Or.inr (Or.inl rfl))
    · rcases hinv (g >>> 1 - 1) with h | h | h
      · exact Or.inl h
      · exact Or.inr (Or.inr (Or.inr h))
      · exact Or.inr (Or.inl h.1)
  · intro h1
    unfold genCode at h1
    by_cases hz : g >>> 1 = 0
    · rw [if_pos hz] at h1; omega
    · rw [if_neg hz] at h1
      refine ⟨by omega, ?_⟩
      rcases hinv (g >>> 1 - 1) with h | h | h
      · rw [show trTab l k = (List.range l.length).foldl (trStep l k) (fun _ => 0)
          from rfl] at h1
        omega
      · rw [show trTab l k = (List.range l.length).foldl (trStep l k) (fun _ => 0)
          from rfl] at h1
        omega
      · exact h.2

/-! ## k-way merge ordering (bgt.c, bgtm_read_core / bgtm_read) -/

/-- Modelled from the spec: bcfcmp lives in vcf.c, which is not under
src/; per the spec it compares two sites by the key
(rid, pos, rlen, REF, ALT[0]) under the lexicographic total order, and
bcfcpy_min keeps that key, so a record in the merge is modelled by its
key alone. -/
abbrev MKey : Type := ℕ ×ₗ ℕ ×ₗ ℕ ×ₗ (List Char) ×ₗ (List Char)

/-- Build a merge key from the five site fields. -/
def mkKey (rid pos rlen : ℕ) (ref alt1 : List Char) : MKey :=
  toLex (rid, toLex (pos, toLex (rlen, toLex (ref, alt1))))

/-- One child slot of a MergedReader: the remaining records of that
child's stream, and the buffered record bm->r[i] (none when empty). -/
abbrev MSlot : Type := List MKey × Option MKey

/-- The buffer-fill step of bgtm_read_core lines 386-390: a slot with
an empty buffer pulls the next record of its child, if any. -/
def fillSlot : MSlot → MSlot
  | (s, some k) => (s, some k)
  | ([], none) => ([], none)
  | (k :: s, none) => (s, some k)

/-- The records a slot still holds, the buffered one first. -/
def slotKeys (p : MSlot) : List MKey := p.2.toList ++ p.1

/-- The smallest-record scan of bgtm_read_core lines 392-402 over the
buffered keys: a strictly smaller key replaces the running minimum. -/
def pickMin : List MKey → Option MKey
  | [] => none
  | k :: ks => some (ks.foldl (fun m x => if x < m then x else m) k)

/-- One pass of bgtm_read_core, keys only: fill the buffers; if every
slot is empty, report EOF; otherwise emit the smallest buffered key b0
and clear exactly the slots whose buffered record compares equal to it
(bgt.c lines 386-423). -/
def mergeStep (st : List MSlot) : Option (MKey × List MSlot) :=
  match pickMin ((st.map fillSlot).filterMap Prod.snd) with
  | none => none
  | some b0 =>
    some (b0, (st.map fillSlot).map fun p => (p.1, if p.2 = some b0 then none else p.2))

/-- The keys bgtm_read emits over at most fuel passes, with the
optional record filter of merge step 7: a filtered record is dropped
and the loop re-enters the core (bgt.c lines 468-469 and 476-482). -/
def mergeRun (filt : MKey → Bool) : Nat → List MSlot → List MKey
  | 0, _ => []
  | n + 1, st =>
    match mergeStep st with
    | none => []
    | some (k, st') => if filt k then mergeRun filt n st' else k :: mergeRun filt n st'

/-- Every slot of the merge holds a strictly increasing record list
(the buffered record, then its stream). -/
def SlotsSorted (st : List MSlot) : Prop :=
  ∀ p ∈ st, List.Pairwise (fun a b : MKey => a < b) (slotKeys p)

theorem slotKeys_fillSlot (p : MSlot) : slotKeys (fillSlot p) = slotKeys p := by
  rcases p with ⟨s, b⟩
  cases b with
  | some k => cases s <;> rfl
  | none => cases s with
    | nil => rfl
    | cons k rest => rfl

theorem fillSlot_none (p : MSlot) (h : (fillSlot p).2 = none) : (fillSlot p).1 = [] := by
  rcases p with ⟨s, b⟩
  cases b with
  | some k => cases s <;> exact absurd h (by simp [fillSlot])
  | none => cases s with
    | nil => rfl
    | cons k rest => exact absurd h (by simp [fillSlot])

theorem foldl_min_mem (ks : List MKey) (a : MKey) :
    ks.foldl (fun m x => if x < m then x else m) a = a ∨
      ks.foldl (fun m x => if x < m then x else m) a ∈ ks := by
  induction ks generalizing a with
  | nil => exact Or.inl rfl
  | cons x ks ih =>
    simp only [List.foldl_cons]
    rcases ih (if x < a then x else a) with h | h
    · rw [h]
      split
      · exact Or.inr (by simp)
      · exact Or.inl rfl
    · exact Or.inr (by simp [h])

theorem foldl_min_le (ks : List MKey) (a : MKey) :
    ks.foldl (fun m x => if x < m then x else m) a ≤ a ∧
      ∀ x ∈ ks, ks.foldl (fun m x => if x < m then x else m) a ≤ x := by
  induction ks generalizing a with
  | nil => exact ⟨le_refl a, by simp⟩
  | cons x ks ih =>
    simp only [List.foldl_cons]
    have hb : (if x < a then x else a) ≤ a := by
      split
      · exact le_of_lt (by assumption)
      · exact le_refl a
    have hbx : (if x < a then x else a) ≤ x := by
      split
      · exact le_refl x
      · exact le_of_not_lt (by assumption)
    rcases ih (if x < a then x else a) with ⟨h1, h2⟩
    refine ⟨le_trans h1 hb, ?_⟩
    intro y hy
    rcases List.mem_cons.mp hy with rfl | hy
    · exact le_trans h1 hbx
    · exact h2 y hy

theorem pickMin_mem (ks : List MKey) (m : MKey) (h : pickMin ks = some m) : m ∈ ks := by
  cases ks with
  | nil => exact absurd h (by simp [pickMin])
  | cons k rest =>
    have hm : rest.foldl (fun m x => if x < m then x else m) k = m := by
      simpa [pickMin] using h
    rcases foldl_min_mem rest k with h' | h'
    · rw [hm] at h'; simp [h']
    · rw [hm] at h'; simp [h']

theorem pickMin_le (ks : List MKey) (m : MKey) (h : pickMin ks = some m) :
    ∀ x ∈ ks, m ≤ x := by
  cases ks with
  | nil => exact absurd h (by simp [pickMin])
  | cons k rest =>
    have hm : rest.foldl (fun m x => if x < m then x else m) k = m := by
      simpa [pickMin] using h
    intro x hx
    rcases List.mem_cons.mp hx with rfl | hx
    · rw [← hm]; exact (foldl_min_le rest x).1
    · rw [← hm]; exact (foldl_min_le rest k).2 x hx

theorem mergeStep_some_inv (st : List MSlot) (k : MKey) (st' : List MSlot)
    (h : mergeStep st = some (k, st')) :
    pickMin ((st.map fillSlot).filterMap Prod.snd) = some k ∧
      st' = (st.map fillSlot).map fun p => (p.1, if p.2 = some k then none else p.2) := by
  unfold mergeStep at h
  cases hpk : pickMin ((st.map fillSlot).filterMap Prod.snd) with
  | none => rw [hpk] at h; exact absurd h (by simp)
  | some b0 =>
    rw [hpk] at h
    simp only [Option.some_inj] at h
    have hb0 : b0 = k := congrArg Prod.fst h
    have hst := congrArg Prod.snd h
    subst hb0
    exact ⟨rfl, hst.symm⟩

theorem mergeRun_succ_none (filt : MKey → Bool) (n : Nat) (st : List MSlot)
    (h : mergeStep st = none) : mergeRun filt (n + 1) st = [] := by
  unfold mergeRun
  rw [h]

theorem mergeRun_succ_some (filt : MKey → Bool) (n : Nat) (st : List MSlot)
    (k : MKey) (st' : List MSlot) (h : mergeStep st = some (k, st')) :
    mergeRun filt (n + 1) st =
      if filt k then mergeRun filt n st' else k :: mergeRun filt n st' := by
  conv_lhs => unfold mergeRun
  rw [h]

theorem mergeStep_lb (st : List MSlot) (k : MKey) (st' : List MSlot)
    (hs : SlotsSorted st) (h : mergeStep st = some (k, st')) :
    SlotsSorted st' ∧ ∀ p' ∈ st', ∀ x ∈ slotKeys p', k < x := by
  have hs1 : SlotsSorted (st.map fillSlot) := by
    intro p hp
    rcases List.mem_map.mp hp with ⟨q, hq, rfl⟩
    rw [slotKeys_fillSlot]
    exact hs q hq
  rcases mergeStep_some_inv st k st' h with ⟨hpk, hst⟩
  subst hst
  constructor
  · intro p' hp'
    rcases List.mem_map.mp hp' with ⟨p, hp, rfl⟩
    have hsp := hs1 p hp
    by_cases hb : p.2 = some k
    · rw [if_pos hb]
      unfold slotKeys at hsp ⊢
      rw [hb] at hsp
      simp only [Option.toList_some, List.singleton_append] at hsp
      simp only [Option.toList_none, List.nil_append]
      exact (List.pairwise_cons.mp hsp).2
    · rw [if_neg hb]
      exact hsp
  · intro p' hp' x hx
    rcases List.mem_map.mp hp' with ⟨p, hp, rfl⟩
    have hsp := hs1 p hp
    by_cases hb : p.2 = some k
    · rw [if_pos hb] at hx
      unfold slotKeys at hx
      simp only [Option.toList_none, List.nil_append] at hx
      unfold slotKeys at hsp
      rw [hb] at hsp
      simp only [Option.toList_some, List.singleton_append] at hsp
      exact (List.pairwise_cons.mp hsp).1 x hx
    · rw [if_neg hb] at hx
      unfold slotKeys at hx
      cases hb2 : p.2 with
      | none =>
        rw [hb2] at hx
        simp only [Option.toList_none, List.nil_append] at hx
        have hnil : p.1 = [] := by
          rcases List.mem_map.mp hp with ⟨q, _, rfl⟩
          exact fillSlot_none q hb2
        rw [hnil] at hx
        exact absurd hx (List.not_mem_nil x)
      | some v =>
        have hv : v ∈ (st.map fillSlot).filterMap Prod.snd := by
          apply List.mem_filterMap.mpr
          exact ⟨p, hp, by rw [hb2]⟩
        have hkv : k ≤ v := pickMin_le _ _ hpk v hv
        have hkv2 : k ≠ v := by
          intro he
          exact hb (by rw [hb2, ← he])
        have hklt : k < v := lt_of_le_of_ne hkv hkv2
        rw [hb2] at hx
        simp only [Option.toList_some, List.singleton_append] at hx
        rcases List.mem_cons.mp hx with rfl | hx
        · exact hklt
        · have hsp2 : List.Pairwise (fun a b : MKey => a < b) (v :: p.1) := by
            have hcopy := hsp
            unfold slotKeys at hcopy
            rw [hb2] at hcopy
            simpa using hcopy
          exact lt_trans hklt ((List.pairwise_cons.mp hsp2).1 x hx)

theorem mergeStep_emit_mem (st : List MSlot) (k : MKey) (st' : List MSlot)
    (h : mergeStep st = some (k, st')) : ∃ p ∈ st, k ∈ slotKeys p := by
  rcases mergeStep_some_inv st k st' h with ⟨hpk, _⟩
  have hmem := pickMin_mem _ _ hpk
  rcases List.mem_filterMap.mp hmem with ⟨p, hp, hsnd⟩
  rcases List.mem_map.mp hp with ⟨q, hq, rfl⟩
  refine ⟨q, hq, ?_⟩
  rw [← slotKeys_fillSlot q]
  unfold slotKeys
  rw [hsnd]
  simp

theorem mergeRun_lb (filt : MKey → Bool) (n : Nat) :
    ∀ (st : List MSlot) (lb : MKey),
      SlotsSorted st → (∀ p ∈ st, ∀ x ∈ slotKeys p, lb < x) →
      ∀ y ∈ mergeRun filt n st, lb < y := by
  induction n with
  | zero => intro st lb _ _ y hy; exact absurd hy (by simp [mergeRun])
  | succ n ih =>
    intro st lb hs hlb y hy
    cases hstep : mergeStep st with
    | none =>
      rw [mergeRun_succ_none filt n st hstep] at hy
      exact absurd hy (List.not_mem_nil y)
    | some r =>
      rcases r with ⟨k, st'⟩
      rw [mergeRun_succ_some filt n st k st' hstep] at hy
      have hlbk : lb < k := by
        rcases mergeStep_emit_mem st k st' hstep with ⟨p, hp, hk⟩
        exact hlb p hp k hk
      rcases mergeStep_lb st k st' hs hstep with ⟨hs', hlb'⟩
      have hlb'' : ∀ p ∈ st', ∀ x ∈ slotKeys p, lb < x :=
        fun p hp x hx => lt_trans hlbk (hlb' p hp x hx)
      by_cases hf : filt k
      · rw [if_pos hf] at hy
        exact ih st' lb hs' hlb'' y hy
      · rw [if_neg hf] at hy
        rcases List.mem_cons.mp hy with rfl | hy
        · exact hlbk
        · exact ih st' lb hs' hlb'' y hy

theorem mergeRun_chain (filt : MKey → Bool) (n : Nat) :
    ∀ st : List MSlot, SlotsSorted st →
      List.Chain' (fun a b : MKey => a < b) (mergeRun filt n st) := by
  induction n with
  | zero => intro st _; simp [mergeRun]
  | succ n ih =>
    intro st hs
    cases hstep : mergeStep st with
    | none =>
      rw [mergeRun_succ_none filt n st hstep]
      simp
    | some r =>
      rcases r with ⟨k, st'⟩
      rw [mergeRun_succ_some filt n st k st' hstep]
      rcases mergeStep_lb st k st' hs hstep with ⟨hs', hlb'⟩
      by_cases hf : filt k
      · rw [if_pos hf]
        exact ih st' hs'
      · rw [if_neg hf]
        apply List.chain'_cons'.mpr
        refine ⟨?_, ih st' hs'⟩
        intro y hy
        have hym : y ∈ mergeRun filt n st' := by
          cases hrun : mergeRun filt n st' with
          | nil => rw [hrun] at hy; exact absurd hy (by simp)
          | cons a rest =>
            rw [hrun] at hy
            simp only [List.head?_cons, Option.mem_def, Option.some_inj] at hy
            rw [← hy]
            exact List.mem_cons_self a rest
        exact mergeRun_lb filt n st' k hs' hlb' y hym

/-- C1: over any number of successful reads, a MergedReader over child
streams that are each strictly increasing by the site key
(rid, pos, rlen, REF, ALT[0]) emits a strictly increasing key sequence:
consecutive outputs always satisfy key(out_i) < key(out_i+1), ties
being impossible because every slot equal to the emitted minimum is
cleared in the same pass. -/
theorem C1_merge_strictly_increasing (streams : List (List MKey))
    (filt : MKey → Bool) (n : Nat)
    (hs : ∀ s ∈ streams, List.Pairwise (fun a b : MKey => a < b) s) :
    List.Chain' (fun a b : MKey => a < b)
      (mergeRun filt n (streams.map fun s => (s, none))) := by
  apply mergeRun_chain
  intro p hp
  rcases List.mem_map.mp hp with ⟨s, hsmem, rfl⟩
  unfold slotKeys
  simpa using hs s hsmem

/-- C1 witness: two sorted child streams sharing one site; four merge
passes emit three strictly increasing records. -/
theorem C1_merge_strictly_increasing_witness :
    List.Chain' (fun a b : MKey => a < b)
      (mergeRun (fun _ => false) 4
        (([[mkKey 0 100 1 ['A'] ['T'], mkKey 0 200 1 ['C'] ['G']],
           [mkKey 0 100 1 ['A'] ['T'], mkKey 1 50 2 ['A', 'C'] ['A']]] :
            List (List MKey)).map fun s => (s, none))) :=
  C1_merge_strictly_increasing _ (fun _ => false) 4 (by decide)

/-! ## The two per-group allele-count strategies (bgt.c, bgtm_read_core lines 434-456) -/

/-- Add v into entry (j, c) of a group-count table gcnt. -/
def tbAdd (T : Nat → Nat → Nat) (j c v : Nat) : Nat → Nat → Nat :=
  fun j' c' => if j' = j ∧ c' = c then T j' c' + v else T j' c'

/-- The haplotype sequence both strategies consume: for each haplotype
index i of the output planes, the sample's group mask group[i>>1]
paired with the two-bit code a1[i]<<1 | a0[i]. -/
def mkHaps (a0 a1 : List Bool) (group : List Nat) : List (Nat × Nat) :=
  (List.range a0.length).map fun i =>
    (group.getD (i / 2) 0,
      (if a1.getD i false then 1 else 0) <<< 1 ||| (if a0.getD i false then 1 else 0))

/-- The inner loop of the per-haplotype strategy: for every group bit j
below n_groups set in the mask, bump gcnt[j+1][ht]. -/
def acBump (ng m c : Nat) (T : Nat → Nat → Nat) : Nat → Nat → Nat :=
  (List.range ng).foldl (fun T j => if m.testBit j then tbAdd T (j + 1) c 1 else T) T

/-- Strategy 1 of merge step 5 (bgt.c lines 438-445), used when the
haplotype count is below 1024: one pass over the haplotypes, skipping
those whose sample mask is zero. -/
def acStrat1 (ng : Nat) (haps : List (Nat × Nat)) : Nat → Nat → Nat :=
  haps.foldl (fun T p => if p.1 ≠ 0 then acBump ng p.1 p.2 T else T) fun _ _ => 0

/-- The 256-by-4 bucket pass of strategy 2 (bgt.c lines 449-450):
count haplotypes by (8-bit mask, 2-bit code). -/
def bucket256 (haps : List (Nat × Nat)) : Nat → Nat → Nat :=
  haps.foldl (fun B p => tbAdd B p.1 p.2 1) fun _ _ => 0

/-- Strategy 2 of merge step 5 (bgt.c lines 446-456): bucket the
haplotypes, then fold every bucket whose mask has group bit j into
gcnt[j+1], entry by entry over the four codes. -/
def acStrat2 (ng : Nat) (haps : List (Nat × Nat)) : Nat → Nat → Nat :=
  (List.range 256).foldl
    (fun T m =>
      (List.range ng).foldl
        (fun T j =>
          if m.testBit j then
            (List.range 4).foldl (fun T k => tbAdd T (j + 1) k (bucket256 haps m k)) T
          else T)
        T)
    (fun _ _ => 0)

theorem tbAdd_apply (T : Nat → Nat → Nat) (j c v j' c' : Nat) :
    tbAdd T j c v j' c' = T j' c' + if j' = j ∧ c' = c then v else 0 := by
  unfold tbAdd
  split
  · rfl
  · simp

theorem acBump_succ (ng m c : Nat) (T : Nat → Nat → Nat) :
    acBump (ng + 1) m c T =
      if m.testBit ng then tbAdd (acBump ng m c T) (ng + 1) c 1 else acBump ng m c T := by
  unfold acBump
  rw [List.range_succ, List.foldl_append]
  rfl

theorem acBump_apply (m c : Nat) : ∀ (ng : Nat) (T : Nat → Nat → Nat) (j' c' : Nat),
    acBump ng m c T j' c' = T j' c' +
      if 1 ≤ j' ∧ j' ≤ ng ∧ m.testBit (j' - 1) = true ∧ c' = c then 1 else 0 := by
  intro ng
  induction ng with
  | zero =>
    intro T j' c'
    rw [if_neg (by rintro ⟨h1, h2, _⟩; omega)]
    rfl
  | succ ng ih =>
    intro T j' c'
    rw [acBump_succ]
    by_cases hbit : m.testBit ng
    · rw [if_pos hbit, tbAdd_apply, ih]
      by_cases hc : c' = c
      · by_cases hj : j' = ng + 1
        · have hA : ¬(1 ≤ j' ∧ j' ≤ ng ∧ m.testBit (j' - 1) = true ∧ c' = c) := by
            rintro ⟨h1, h2, _⟩; omega
          have hB : j' = ng + 1 ∧ c' = c := ⟨hj, hc⟩
          have hC : 1 ≤ j' ∧ j' ≤ ng + 1 ∧ m.testBit (j' - 1) = true ∧ c' = c :=
            ⟨by omega, by omega, by rw [show j' - 1 = ng by omega]; exact hbit, hc⟩
          rw [if_neg hA, if_pos hB, if_pos hC]
        · have hB : ¬(j' = ng + 1 ∧ c' = c) := fun h => hj h.1
          rw [if_neg hB, Nat.add_zero]
          have hiff : (1 ≤ j' ∧ j' ≤ ng ∧ m.testBit (j' - 1) = true ∧ c' = c) ↔
              (1 ≤ j' ∧ j' ≤ ng + 1 ∧ m.testBit (j' - 1) = true ∧ c' = c) := by
            constructor
            · rintro ⟨h1, h2, h3, h4⟩; exact ⟨h1, by omega, h3, h4⟩
            · rintro ⟨h1, h2, h3, h4⟩; exact ⟨h1, by omega, h3, h4⟩
          rw [if_congr hiff rfl rfl]
      · have hA : ¬(1 ≤ j' ∧ j' ≤ ng ∧ m.testBit (j' - 1) = true ∧ c' = c) := by
          rintro ⟨_, _, _, h4⟩; exact hc h4
        have hB : ¬(j' = ng + 1 ∧ c' = c) := fun h => hc h.2
        have hC : ¬(1 ≤ j' ∧ j' ≤ ng + 1 ∧ m.testBit (j' - 1) = true ∧ c' = c) := by
          rintro ⟨_, _, _, h4⟩; exact hc h4
        rw [if_neg hA, if_neg hB, if_neg hC]
    · rw [if_neg hbit, ih]
      have hiff : (1 ≤ j' ∧ j' ≤ ng ∧ m.testBit (j' - 1) = true ∧ c' = c) ↔
          (1 ≤ j' ∧ j' ≤ ng + 1 ∧ m.testBit (j' - 1) = true ∧ c' = c) := by
        constructor
        · rintro ⟨h1, h2, h3, h4⟩; exact ⟨h1, by omega, h3, h4⟩
        · rintro ⟨h1, h2, h3, h4⟩
          refine ⟨h1, ?_, h3, h4⟩
          by_cases hj : j' = ng + 1
          · rw [show j' - 1 = ng by omega] at h3
            exact absurd h3 hbit
          · omega
      rw [if_congr hiff rfl rfl]

theorem acStrat1_go (ng : Nat) (haps : List (Nat × Nat)) :
    ∀ (T : Nat → Nat → Nat) (j' c' : Nat),
      (haps.foldl (fun T p => if p.1 ≠ 0 then acBump ng p.1 p.2 T else T) T) j' c' =
        T j' c' + if 1 ≤ j' ∧ j' ≤ ng then
          haps.countP (fun p => p.1.testBit (j' - 1) && p.2 == c') else 0 := by
  induction haps with
  | nil =>
    intro T j' c'
    simp only [List.foldl_nil, List.countP_nil]
    split <;> rfl
  | cons p t ih =>
    intro T j' c'
    simp only [List.foldl_cons]
    rw [ih]
    have hstep : (if p.1 ≠ 0 then acBump ng p.1 p.2 T else T) j' c' =
        T j' c' + if 1 ≤ j' ∧ j' ≤ ng ∧ p.1.testBit (j' - 1) = true ∧ c' = p.2
          then 1 else 0 := by
      by_cases hz : p.1 ≠ 0
      · rw [if_pos hz, acBump_apply]
      · rw [if_neg hz]
        have hz0 : p.1 = 0 := by omega
        rw [if_neg (by rintro ⟨_, _, h3, _⟩; rw [hz0, Nat.zero_testBit] at h3; exact absurd h3 (by simp))]
        rfl
    rw [hstep]
    rw [List.countP_cons]
    by_cases hr : 1 ≤ j' ∧ j' ≤ ng
    · rw [if_pos hr, if_pos hr]
      by_cases ht : p.1.testBit (j' - 1) = true
      · by_cases hc : c' = p.2
        · rw [if_pos ⟨hr.1, hr.2, ht, hc⟩, if_pos (by rw [Bool.and_eq_true, beq_iff_eq]; exact ⟨ht, hc.symm⟩)]
          omega
        · rw [if_neg (by rintro ⟨_, _, _, h4⟩; exact hc h4),
            if_neg (by rw [Bool.and_eq_true, beq_iff_eq]; rintro ⟨_, h⟩; exact hc h.symm)]
          omega
      · rw [if_neg (by rintro ⟨_, _, h3, _⟩; exact ht h3),
          if_neg (by rw [Bool.and_eq_true]; rintro ⟨h, _⟩; exact ht h)]
        omega
    · rw [if_neg hr, if_neg hr, if_neg (by rintro ⟨h1, h2, _⟩; exact hr ⟨h1, h2⟩)]

theorem acStrat1_apply (ng : Nat) (haps : List (Nat × Nat)) (j' c' : Nat) :
    acStrat1 ng haps j' c' =
      if 1 ≤ j' ∧ j' ≤ ng then
        haps.countP (fun p => p.1.testBit (j' - 1) && p.2 == c') else 0 := by
  unfold acStrat1
  rw [acStrat1_go, Nat.zero_add]

theorem bucket256_go (haps : List (Nat × Nat)) :
    ∀ (B : Nat → Nat → Nat) (m c : Nat),
      (haps.foldl (fun B p => tbAdd B p.1 p.2 1) B) m c =
        B m c + haps.countP (fun p => p.1 == m && p.2 == c) := by
  induction haps with
  | nil => intro B m c; simp
  | cons p t ih =>
    intro B m c
    simp only [List.foldl_cons]
    rw [ih, tbAdd_apply, List.countP_cons]
    by_cases hp : m = p.1 ∧ c = p.2
    · rw [if_pos hp, if_pos (by rw [Bool.and_eq_true, beq_iff_eq, beq_iff_eq]; exact ⟨hp.1.symm, hp.2.symm⟩)]
      omega
    · rw [if_neg hp, if_neg (by
        rw [Bool.and_eq_true, beq_iff_eq, beq_iff_eq]
        rintro ⟨h1, h2⟩
        exact hp ⟨h1.symm, h2.symm⟩)]
      omega

theorem bucket256_apply (haps : List (Nat × Nat)) (m c : Nat) :
    bucket256 haps m c = haps.countP (fun p => p.1 == m && p.2 == c) := by
  unfold bucket256
  rw [bucket256_go, Nat.zero_add]

theorem acFoldK (haps : List (Nat × Nat)) (m j : Nat) (T : Nat → Nat → Nat)
    (j' c' : Nat) :
    ((List.range 4).foldl (fun T k => tbAdd T (j + 1) k (bucket256 haps m k)) T) j' c' =
      T j' c' + if j' = j + 1 ∧ c' < 4 then bucket256 haps m c' else 0 := by
  have hr : List.range 4 = [0, 1, 2, 3] := rfl
  rw [hr]
  simp only [List.foldl_cons, List.foldl_nil]
  rw [tbAdd_apply, tbAdd_apply, tbAdd_apply, tbAdd_apply]
  by_cases hj : j' = j + 1
  · by_cases h0 : c' = 0
    · subst h0
      have hB0 : j' = j + 1 ∧ (0 : Nat) = 0 := ⟨hj, rfl⟩
      have hB1 : ¬(j' = j + 1 ∧ (0 : Nat) = 1) := by rintro ⟨_, h⟩; omega
      have hB2 : ¬(j' = j + 1 ∧ (0 : Nat) = 2) := by rintro ⟨_, h⟩; omega
      have hB3 : ¬(j' = j + 1 ∧ (0 : Nat) = 3) := by rintro ⟨_, h⟩; omega
      have hC : j' = j + 1 ∧ (0 : Nat) < 4 := ⟨hj, by omega⟩
      rw [if_pos hB0, if_neg hB1, if_neg hB2, if_neg hB3, if_pos hC]
      omega
    · by_cases h1 : c' = 1
      · subst h1
        have hB0 : ¬(j' = j + 1 ∧ (1 : Nat) = 0) := by rintro ⟨_, h⟩; omega
        have hB1 : j' = j + 1 ∧ (1 : Nat) = 1 := ⟨hj, rfl⟩
        have hB2 : ¬(j' = j + 1 ∧ (1 : Nat) = 2) := by rintro ⟨_, h⟩; omega
        have hB3 : ¬(j' = j + 1 ∧ (1 : Nat) = 3) := by rintro ⟨_, h⟩; omega
        have hC : j' = j + 1 ∧ (1 : Nat) < 4 := ⟨hj, by omega⟩
        rw [if_neg hB0, if_pos hB1, if_neg hB2, if_neg hB3, if_pos hC]
        omega
      · by_cases h2 : c' = 2
        · subst h2
          have hB0 : ¬(j' = j + 1 ∧ (2 : Nat) = 0) := by rintro ⟨_, h⟩; omega
          have hB1 : ¬(j' = j + 1 ∧ (2 : Nat) = 1) := by rintro ⟨_, h⟩; omega
          have hB2 : j' = j + 1 ∧ (2 : Nat) = 2 := ⟨hj, rfl⟩
          have hB3 : ¬(j' = j + 1 ∧ (2 : Nat) = 3) := by rintro ⟨_, h⟩; omega
          have hC : j' = j + 1 ∧ (2 : Nat) < 4 := ⟨hj, by omega⟩
          rw [if_neg hB0, if_neg hB1, if_pos hB2, if_neg hB3, if_pos hC]
          omega
        · by_cases h3 : c' = 3
          · subst h3
            have hB0 : ¬(j' = j + 1 ∧ (3 : Nat) = 0) := by rintro ⟨_, h⟩; omega
            have hB1 : ¬(j' = j + 1 ∧ (3 : Nat) = 1) := by rintro ⟨_, h⟩; omega
            have hB2 : ¬(j' = j + 1 ∧ (3 : Nat) = 2) := by rintro ⟨_, h⟩; omega
            have hB3 : j' = j + 1 ∧ (3 : Nat) = 3 := ⟨hj, rfl⟩
            have hC : j' = j + 1 ∧ (3 : Nat) < 4 := ⟨hj, by omega⟩
            rw [if_neg hB0, if_neg hB1, if_neg hB2, if_pos hB3, if_pos hC]
            omega
          · have hB0 : ¬(j' = j + 1 ∧ c' = 0) := by rintro ⟨_, h⟩; exact h0 h
            have hB1 : ¬(j' = j + 1 ∧ c' = 1) := by rintro ⟨_, h⟩; exact h1 h
            have hB2 : ¬(j' = j + 1 ∧ c' = 2) := by rintro ⟨_, h⟩; exact h2 h
            have hB3 : ¬(j' = j + 1 ∧ c' = 3) := by rintro ⟨_, h⟩; exact h3 h
            have hC : ¬(j' = j + 1 ∧ c' < 4) := by rintro ⟨_, h⟩; omega
            rw [if_neg hB0, if_neg hB1, if_neg hB2, if_neg hB3, if_neg hC]
  · have hB0 : ¬(j' = j + 1 ∧ c' = 0) := fun h => hj h.1
    have hB1 : ¬(j' = j + 1 ∧ c' = 1) := fun h => hj h.1
    have hB2 : ¬(j' = j + 1 ∧ c' = 2) := fun h => hj h.1
    have hB3 : ¬(j' = j + 1 ∧ c' = 3) := fun h => hj h.1
    have hC : ¬(j' = j + 1 ∧ c' < 4) := fun h => hj h.1
    rw [if_neg hB0, if_neg hB1, if_neg hB2, if_neg hB3, if_neg hC]

theorem acFoldJ (haps : List (Nat × Nat)) (m : Nat) : ∀ (ng : Nat) (T : Nat → Nat → Nat)
    (j' c' : Nat),
    ((List.range ng).foldl
      (fun T j =>
        if m.testBit j then
          (List.range 4).foldl (fun T k => tbAdd T (j + 1) k (bucket256 haps m k)) T
        else T) T) j' c' =
      T j' c' + if 1 ≤ j' ∧ j' ≤ ng ∧ m.testBit (j' - 1) = true ∧ c' < 4 then
        bucket256 haps m c' else 0 := by
  intro ng
  induction ng with
  | zero =>
    intro T j' c'
    rw [if_neg (by rintro ⟨h1, h2, _⟩; omega)]
    rfl
  | succ ng ih =>
    intro T j' c'
    rw [show List.range (ng + 1) = List.range ng ++ [ng] from List.range_succ ng,
      List.foldl_append]
    simp only [List.foldl_cons, List.foldl_nil]
    by_cases hbit : m.testBit ng
    · rw [if_pos hbit, acFoldK, ih]
      by_cases hc : c' < 4
      · by_cases hj : j' = ng + 1
        · have hA : ¬(1 ≤ j' ∧ j' ≤ ng ∧ m.testBit (j' - 1) = true ∧ c' < 4) := by
            rintro ⟨h1, h2, _⟩; omega
          have hB : j' = ng + 1 ∧ c' < 4 := ⟨hj, hc⟩
          have hC : 1 ≤ j' ∧ j' ≤ ng + 1 ∧ m.testBit (j' - 1) = true ∧ c' < 4 :=
            ⟨by omega, by omega, by rw [show j' - 1 = ng by omega]; exact hbit, hc⟩
          rw [if_neg hA, if_pos hB, if_pos hC]
          omega
        · have hB : ¬(j' = ng + 1 ∧ c' < 4) := fun h => hj h.1
          rw [if_neg hB, Nat.add_zero]
          have hiff : (1 ≤ j' ∧ j' ≤ ng ∧ m.testBit (j' - 1) = true ∧ c' < 4) ↔
              (1 ≤ j' ∧ j' ≤ ng + 1 ∧ m.testBit (j' - 1) = true ∧ c' < 4) := by
            constructor
            · rintro ⟨h1, h2, h3, h4⟩; exact ⟨h1, by omega, h3, h4⟩
            · rintro ⟨h1, h2, h3, h4⟩; exact ⟨h1, by omega, h3, h4⟩
          rw [if_congr hiff rfl rfl]
      · have hA : ¬(1 ≤ j' ∧ j' ≤ ng ∧ m.testBit (j' - 1) = true ∧ c' < 4) := by
          rintro ⟨_, _, _, h4⟩; exact hc h4
        have hB : ¬(j' = ng + 1 ∧ c' < 4) := fun h => hc h.2
        have hC : ¬(1 ≤ j' ∧ j' ≤ ng + 1 ∧ m.testBit (j' - 1) = true ∧ c' < 4) := by
          rintro ⟨_, _, _, h4⟩; exact hc h4
        rw [if_neg hA, if_neg hB, if_neg hC]
    · rw [if_neg hbit, ih]
      have hiff : (1 ≤ j' ∧ j' ≤ ng ∧ m.testBit (j' - 1) = true ∧ c' < 4) ↔
          (1 ≤ j' ∧ j' ≤ ng + 1 ∧ m.testBit (j' - 1) = true ∧ c' < 4) := by
        constructor
        · rintro ⟨h1, h2, h3, h4⟩; exact ⟨h1, by omega, h3, h4⟩
        · rintro ⟨h1, h2, h3, h4⟩
          refine ⟨h1, ?_, h3, h4⟩
          by_cases hj : j' = ng + 1
          · rw [show j' - 1 = ng by omega] at h3
            exact absurd h3 hbit
          · omega
      rw [if_congr hiff rfl rfl]

theorem acStrat2_go (haps : List (Nat × Nat)) (ng : Nat) : ∀ (M : Nat)
    (T : Nat → Nat → Nat) (j' c' : Nat),
    ((List.range M).foldl
      (fun T m =>
        (List.range ng).foldl
          (fun T j =>
            if m.testBit j then
              (List.range 4).foldl (fun T k => tbAdd T (j + 1) k (bucket256 haps m k)) T
            else T) T) T) j' c' =
      T j' c' + ∑ m ∈ Finset.range M,
        if 1 ≤ j' ∧ j' ≤ ng ∧ m.testBit (j' - 1) = true ∧ c' < 4 then
          bucket256 haps m c' else 0 := by
  intro M
  induction M with
  | zero => intro T j' c'; simp
  | succ M ih =>
    intro T j' c'
    rw [show List.range (M + 1) = List.range M ++ [M] from List.range_succ M,
      List.foldl_append]
    simp only [List.foldl_cons, List.foldl_nil]
    rw [acFoldJ, ih, Finset.sum_range_succ]
    omega

theorem acStrat2_apply (ng : Nat) (haps : List (Nat × Nat)) (j' c' : Nat) :
    acStrat2 ng haps j' c' =
      ∑ m ∈ Finset.range 256,
        if 1 ≤ j' ∧ j' ≤ ng ∧ m.testBit (j' - 1) = true ∧ c' < 4 then
          bucket256 haps m c' else 0 := by
  unfold acStrat2
  rw [acStrat2_go, Nat.zero_add]

theorem count_mask_split (b c' : Nat) :
    ∀ haps : List (Nat × Nat), (∀ p ∈ haps, p.1 < 256) →
      (∑ m ∈ Finset.range 256,
        if m.testBit b = true then
          haps.countP (fun p => p.1 == m && p.2 == c') else 0) =
        haps.countP (fun p => p.1.testBit b && p.2 == c') := by
  intro haps
  induction haps with
  | nil => intro _; simp
  | cons p t ih =>
    intro hm
    have hp256 : p.1 < 256 := hm p (by simp)
    have ht : ∀ q ∈ t, q.1 < 256 := fun q hq => hm q (by simp [hq])
    simp only [List.countP_cons]
    have hsplit : (∑ m ∈ Finset.range 256,
        if m.testBit b = true then
          t.countP (fun q => q.1 == m && q.2 == c') +
            (if (p.1 == m && p.2 == c') = true then 1 else 0) else 0) =
        (∑ m ∈ Finset.range 256,
          if m.testBit b = true then t.countP (fun q => q.1 == m && q.2 == c') else 0) +
        ∑ m ∈ Finset.range 256,
          if m.testBit b = true then (if (p.1 == m && p.2 == c') = true then 1 else 0)
          else 0 := by
      rw [← Finset.sum_add_distrib]
      apply Finset.sum_congr rfl
      intro m _
      split <;> omega
    rw [hsplit, ih ht]
    have h0 : ∀ m ∈ Finset.range 256, m ≠ p.1 →
        (if m.testBit b = true then
          (if (p.1 == m && p.2 == c') = true then 1 else 0) else 0) = 0 := by
      intro m _ hmne
      by_cases hbit2 : m.testBit b = true
      · rw [if_pos hbit2, if_neg (by
          rw [Bool.and_eq_true, beq_iff_eq]
          rintro ⟨h1, _⟩
          exact hmne h1.symm)]
      · rw [if_neg hbit2]
    have h1 : p.1 ∉ Finset.range 256 →
        (if p.1.testBit b = true then
          (if (p.1 == p.1 && p.2 == c') = true then 1 else 0) else 0) = 0 :=
      fun hn => absurd (Finset.mem_range.mpr hp256) hn
    have hsingle : (∑ m ∈ Finset.range 256,
        if m.testBit b = true then (if (p.1 == m && p.2 == c') = true then 1 else 0)
        else 0) = if (p.1.testBit b && p.2 == c') = true then 1 else 0 := by
      rw [Finset.sum_eq_single p.1 h0 h1]
      by_cases hbit : p.1.testBit b = true <;> by_cases hc : (p.2 == c') = true <;>
        simp [hbit, hc]
    rw [hsingle]

/-- C8: for every pair of output genotype planes, every per-sample
group-mask assignment (masks are 8-bit, hence below 256), every group
count above 1 and every table entry, the per-haplotype strategy and the
256-by-4 bucket-then-fold strategy of merge step 5 compute the same
per-group count. -/
theorem C8_ac_strategies_agree (a0 a1 : List Bool) (group : List Nat) (ng : Nat)
    (hng : 1 < ng) (hgr : ∀ g ∈ group, g < 256) (j c : Nat) :
    acStrat1 ng (mkHaps a0 a1 group) j c = acStrat2 ng (mkHaps a0 a1 group) j c := by
  have hm : ∀ p ∈ mkHaps a0 a1 group, p.1 < 256 := by
    intro p hp
    unfold mkHaps at hp
    rcases List.mem_map.mp hp with ⟨i, _, rfl⟩
    by_cases hlen : i / 2 < group.length
    · exact hgr _ (by rw [List.getD_eq_getElem _ _ hlen]; exact List.getElem_mem hlen)
    · rw [List.getD_eq_default _ _ (by omega)]
      omega
  have hp2 : ∀ p ∈ mkHaps a0 a1 group, p.2 < 4 := by
    intro p hp
    unfold mkHaps at hp
    rcases List.mem_map.mp hp with ⟨i, _, rfl⟩
    by_cases h1 : a1.getD i false = true <;> by_cases h0 : a0.getD i false = true
    · rw [if_pos h1, if_pos h0]
      show (1 <<< 1 ||| 1 : Nat) < 4
      decide
    · rw [if_pos h1, if_neg h0]
      show (1 <<< 1 ||| 0 : Nat) < 4
      decide
    · rw [if_neg h1, if_pos h0]
      show (0 <<< 1 ||| 1 : Nat) < 4
      decide
    · rw [if_neg h1, if_neg h0]
      show (0 <<< 1 ||| 0 : Nat) < 4
      decide
  rw [acStrat1_apply, acStrat2_apply]
  by_cases hr : 1 ≤ j ∧ j ≤ ng
  · rw [if_pos hr]
    by_cases hc : c < 4
    · have hsum : (∑ m ∈ Finset.range 256,
          if 1 ≤ j ∧ j ≤ ng ∧ m.testBit (j - 1) = true ∧ c < 4 then
            bucket256 (mkHaps a0 a1 group) m c else 0) =
          ∑ m ∈ Finset.range 256,
            if m.testBit (j - 1) = true then
              (mkHaps a0 a1 group).countP (fun p => p.1 == m && p.2 == c) else 0 := by
        apply Finset.sum_congr rfl
        intro m _
        rw [bucket256_apply]
        by_cases hbit : m.testBit (j - 1) = true
        · rw [if_pos ⟨hr.1, hr.2, hbit, hc⟩, if_pos hbit]
        · rw [if_neg (by rintro ⟨_, _, h3, _⟩; exact hbit h3), if_neg hbit]
      rw [hsum, count_mask_split (j - 1) c _ hm]
    · have hrhs : (∑ m ∈ Finset.range 256,
          if 1 ≤ j ∧ j ≤ ng ∧ m.testBit (j - 1) = true ∧ c < 4 then
            bucket256 (mkHaps a0 a1 group) m c else 0) = 0 :=
        Finset.sum_eq_zero fun m _ => if_neg (by rintro ⟨_, _, _, h4⟩; exact hc h4)
      rw [hrhs]
      rw [List.countP_eq_zero.mpr]
      intro p hp
      rw [Bool.and_eq_true, beq_iff_eq]
      rintro ⟨_, h⟩
      have := hp2 p hp
      omega
  · rw [if_neg hr]
    symm
    exact Finset.sum_eq_zero fun m _ => if_neg (by rintro ⟨ha, hb, _⟩; exact hr ⟨ha, hb⟩)

/-- C8 witness: both strategies agree on a concrete four-haplotype,
two-group reader at table entry (1, 1). -/
theorem C8_ac_strategies_agree_witness :
    acStrat1 2 (mkHaps [true, false, true, true] [false, true, true, false] [3, 1]) 1 1 =
      acStrat2 2 (mkHaps [true, false, true, true] [false, true, true, false] [3, 1]) 1 1 :=
  C8_ac_strategies_agree [true, false, true, true] [false, true, true, false] [3, 1] 2
    (by decide) (by decide) 1 1

/-! ## Allele shorthand parsing (bgt.c, bgt_al_parse) -/

/-- The left-trim loop of bgt_al_parse lines 520-523: count the leading
ALT characters that are alphabetic and match the REF literal case
insensitively; the loop breaks at the first failure, and past the end
of the literal the next input byte is the separator, which matches no
letter, so REF exhaustion also stops it. -/
def ltrimOff : List Char → List Char → Nat
  | r :: rs, c :: cs =>
    if cIsAlpha c = true ∧ cToUpper c = cToUpper r then 1 + ltrimOff rs cs else 0
  | _, _ => 0

/-- The right-trim loop of bgt_al_parse lines 527-534, phrased on the
reversed trimmed REF and the reversed stored ALT: count the trailing
case-insensitive matches whose REF character is alphabetic; the
min(l_alt, rlen) bound is the exhaustion of either list. -/
def rtrimOff : List Char → List Char → Nat
  | r :: rs, c :: cs =>
    if cIsAlpha r = true ∧ cToUpper r = cToUpper c then 1 + rtrimOff rs cs else 0
  | _, _ => 0

/-- The parse result: bgt_allele_t holds (chr, pos, rlen, alt).  The
ref field here retains the trimmed REF literal (none when the third
field was a numeric length); the C struct discards it, so the C result
is the (chr, pos, rlen, alt) projection. -/
structure AlFull where
  chr : List Char
  pos : Int
  rlen : Nat
  alt : List Char
  ref : Option (List Char)
deriving DecidableEq

/-- The value strtol reads from a digit run (overflow disregarded). -/
def digitsVal (ds : List Char) : Nat := ds.foldl (fun n c => n * 10 + (c.toNat - 48)) 0

/-- bgt_al_parse of bgt.c lines 498-537.  The input is split at the
first colon into the chromosome and the rest; the 1-based position and
the REF part (a digit run giving rlen, or an alphabetic literal) each
end at a further colon; ALT is the remainder.  With a literal REF the
shared leading run is trimmed (advancing pos, shrinking rlen) and then
the shared trailing run is trimmed; none models ErrBadAlleleSyntax. -/
def bgt_al_parse (al : List Char) : Option AlFull :=
  match al.dropWhile (fun c => c != ':') with
  | [] => none
  | _ :: p1 =>
    match p1 with
    | [] => none
    | d :: _ =>
      if cIsDigit d = true then
        match p1.dropWhile (fun c => cIsDigit c) with
        | [] => none
        | s2 :: p2 =>
          if s2 = ':' then
            match p2 with
            | [] => none
            | e :: _ =>
              if cIsDigit e = true then
                match p2.dropWhile (fun c => cIsDigit c) with
                | [] => none
                | s3 :: alt0 =>
                  if s3 = ':' then
                    some ⟨al.takeWhile (fun c => c != ':'),
                      (digitsVal (p1.takeWhile fun c => cIsDigit c) : Int) - 1,
                      digitsVal (p2.takeWhile fun c => cIsDigit c), alt0, none⟩
                  else none
              else if cIsAlpha e = true then
                match p2.dropWhile (fun c => cIsAlpha c) with
                | [] => none
                | s3 :: alt0 =>
                  if s3 = ':' then
                    some ⟨al.takeWhile (fun c => c != ':'),
                      (digitsVal (p1.takeWhile fun c => cIsDigit c) : Int) - 1 +
                        ltrimOff (p2.takeWhile fun c => cIsAlpha c) alt0,
                      (p2.takeWhile fun c => cIsAlpha c).length -
                        ltrimOff (p2.takeWhile fun c => cIsAlpha c) alt0 -
                        rtrimOff
                          ((p2.takeWhile fun c => cIsAlpha c).drop
                            (ltrimOff (p2.takeWhile fun c => cIsAlpha c) alt0)).reverse
                          (alt0.drop
                            (ltrimOff (p2.takeWhile fun c => cIsAlpha c) alt0)).reverse,
                      (alt0.drop (ltrimOff (p2.takeWhile fun c => cIsAlpha c) alt0)).take
                        ((alt0.drop (ltrimOff (p2.takeWhile fun c => cIsAlpha c) alt0)).length -
                          rtrimOff
                            ((p2.takeWhile fun c => cIsAlpha c).drop
                              (ltrimOff (p2.takeWhile fun c => cIsAlpha c) alt0)).reverse
                            (alt0.drop
                              (ltrimOff (p2.takeWhile fun c => cIsAlpha c) alt0)).reverse),
                      some
                        (((p2.takeWhile fun c => cIsAlpha c).drop
                            (ltrimOff (p2.takeWhile fun c => cIsAlpha c) alt0)).take
                          (((p2.takeWhile fun c => cIsAlpha c).drop
                              (ltrimOff (p2.takeWhile fun c => cIsAlpha c) alt0)).length -
                            rtrimOff
                              ((p2.takeWhile fun c => cIsAlpha c).drop
                                (ltrimOff (p2.takeWhile fun c => cIsAlpha c) alt0)).reverse
                              (alt0.drop
                                (ltrimOff (p2.takeWhile fun c => cIsAlpha c) alt0)).reverse))⟩
                  else none
              else none
          else none
      else none

/-- Decimal digit characters for serializing a position. -/
def digChar : Nat → Char
  | 0 => '0'
  | 1 => '1'
  | 2 => '2'
  | 3 => '3'
  | 4 => '4'
  | 5 => '5'
  | 6 => '6'
  | 7 => '7'
  | 8 => '8'
  | _ => '9'

/-- Decimal digit string of a number, highest digit first; the fuel
argument makes the recursion structural. -/
def natDigitsAux : Nat → Nat → List Char
  | _, 0 => []
  | n, fuel + 1 =>
    if n < 10 then [digChar n] else natDigitsAux (n / 10) fuel ++ [digChar (n % 10)]

/-- Decimal digit string of a number. -/
def natDigits (n : Nat) : List Char := natDigitsAux n (n + 1)

/-- The serialization chr:(pos+1):REF:ALT of a parse result. -/
def alSer (chr : List Char) (pos1 : Nat) (refl alt : List Char) : List Char :=
  chr ++ ':' :: (natDigits pos1 ++ ':' :: (refl ++ ':' :: alt))

theorem cIsAlpha_not_digit (c : Char) (h : cIsAlpha c = true) : cIsDigit c = false := by
  rw [cIsDigit, decide_eq_false_iff_not]
  rw [cIsAlpha, decide_eq_true_eq] at h
  omega

theorem digChar_isDigit (d : Nat) : cIsDigit (digChar d) = true := by
  unfold digChar
  split <;> decide

theorem digChar_toNat (d : Nat) (h : d < 10) : (digChar d).toNat = 48 + d := by
  interval_cases d <;> decide

theorem natDigitsAux_ne_nil (fuel n : Nat) (h : n < fuel) : natDigitsAux n fuel ≠ [] := by
  cases fuel with
  | zero => omega
  | succ fuel =>
    unfold natDigitsAux
    split
    · simp
    · simp

theorem natDigitsAux_digits (fuel : Nat) : ∀ n, n < fuel →
    ∀ c ∈ natDigitsAux n fuel, cIsDigit c = true := by
  induction fuel with
  | zero => intro n h; omega
  | succ fuel ih =>
    intro n _ c hc
    unfold natDigitsAux at hc
    by_cases h10 : n < 10
    · rw [if_pos h10] at hc
      simp only [List.mem_singleton] at hc
      rw [hc]
      exact digChar_isDigit n
    · rw [if_neg h10] at hc
      rcases List.mem_append.mp hc with h | h
      · exact ih (n / 10) (by omega) c h
      · simp only [List.mem_singleton] at h
        rw [h]
        exact digChar_isDigit (n % 10)

theorem digitsVal_append_one (xs : List Char) (c : Char) :
    digitsVal (xs ++ [c]) = digitsVal xs * 10 + (c.toNat - 48) := by
  unfold digitsVal
  rw [List.foldl_append]
  rfl

theorem natDigitsAux_val (fuel : Nat) : ∀ n, n < fuel →
    digitsVal (natDigitsAux n fuel) = n := by
  induction fuel with
  | zero => intro n h; omega
  | succ fuel ih =>
    intro n hn
    unfold natDigitsAux
    by_cases h10 : n < 10
    · rw [if_pos h10]
      show digitsVal [digChar n] = n
      unfold digitsVal
      simp only [List.foldl_cons, List.foldl_nil]
      rw [digChar_toNat n h10]
      omega
    · rw [if_neg h10, digitsVal_append_one, ih (n / 10) (by omega),
        digChar_toNat (n % 10) (by omega)]
      omega

theorem natDigits_ne_nil (n : Nat) : natDigits n ≠ [] :=
  natDigitsAux_ne_nil (n + 1) n (by omega)

theorem natDigits_digits (n : Nat) : ∀ c ∈ natDigits n, cIsDigit c = true :=
  natDigitsAux_digits (n + 1) n (by omega)

theorem natDigits_val (n : Nat) : digitsVal (natDigits n) = n :=
  natDigitsAux_val (n + 1) n (by omega)

theorem takeWhile_app (p : Char → Bool) (xs : List Char) (y : Char) (ys : List Char)
    (hall : ∀ c ∈ xs, p c = true) (hy : p y = false) :
    (xs ++ y :: ys).takeWhile p = xs ∧ (xs ++ y :: ys).dropWhile p = y :: ys := by
  induction xs with
  | nil =>
    simp only [List.nil_append]
    rw [List.takeWhile_cons, List.dropWhile_cons, hy]
    simp
  | cons a xs ih =>
    have ha : p a = true := hall a (by simp)
    rcases ih (fun c hc => hall c (by simp [hc])) with ⟨h1, h2⟩
    simp only [List.cons_append]
    rw [List.takeWhile_cons, List.dropWhile_cons, ha]
    simp only [if_true]
    exact ⟨by rw [h1], by rw [h2]⟩

theorem ltrimOff_le_left : ∀ r a : List Char, ltrimOff r a ≤ r.length := by
  intro r
  induction r with
  | nil => intro a; cases a <;> simp [ltrimOff]
  | cons rh rs ih =>
    intro a
    cases a with
    | nil => simp [ltrimOff]
    | cons ah as' =>
      unfold ltrimOff
      split
      · have := ih as'
        simp only [List.length_cons]
        omega
      · simp

theorem ltrimOff_le_right : ∀ r a : List Char, ltrimOff r a ≤ a.length := by
  intro r
  induction r with
  | nil => intro a; cases a <;> simp [ltrimOff]
  | cons rh rs ih =>
    intro a
    cases a with
    | nil => simp [ltrimOff]
    | cons ah as' =>
      unfold ltrimOff
      split
      · have := ih as'
        simp only [List.length_cons]
        omega
      · simp

theorem rtrimOff_le_left : ∀ x y : List Char, rtrimOff x y ≤ x.length := by
  intro x
  induction x with
  | nil => intro y; cases y <;> simp [rtrimOff]
  | cons xh xs ih =>
    intro y
    cases y with
    | nil => simp [rtrimOff]
    | cons yh ys =>
      unfold rtrimOff
      split
      · have := ih ys
        simp only [List.length_cons]
        omega
      · simp

theorem rtrimOff_le_right : ∀ x y : List Char, rtrimOff x y ≤ y.length := by
  intro x
  induction x with
  | nil => intro y; cases y <;> simp [rtrimOff]
  | cons xh xs ih =>
    intro y
    cases y with
    | nil => simp [rtrimOff]
    | cons yh ys =>
      unfold rtrimOff
      split
      · have := ih ys
        simp only [List.length_cons]
        omega
      · simp

theorem ltrimOff_drop : ∀ r a : List Char,
    ltrimOff (r.drop (ltrimOff r a)) (a.drop (ltrimOff r a)) = 0 := by
  intro r
  induction r with
  | nil => intro a; cases a <;> rfl
  | cons rh rs ih =>
    intro a
    cases a with
    | nil => rfl
    | cons ah as' =>
      by_cases hc : cIsAlpha ah = true ∧ cToUpper ah = cToUpper rh
      · rw [show ltrimOff (rh :: rs) (ah :: as') = 1 + ltrimOff rs as' from by
          simp only [ltrimOff]
          rw [if_pos hc]]
        have hd1 : (rh :: rs).drop (1 + ltrimOff rs as') = rs.drop (ltrimOff rs as') := by
          rw [Nat.add_comm]
          rfl
        have hd2 : (ah :: as').drop (1 + ltrimOff rs as') = as'.drop (ltrimOff rs as') := by
          rw [Nat.add_comm]
          rfl
        rw [hd1, hd2]
        exact ih as'
      · rw [show ltrimOff (rh :: rs) (ah :: as') = 0 from by
          simp only [ltrimOff]; rw [if_neg hc]]
        simp only [List.drop_zero, ltrimOff]
        rw [if_neg hc]

theorem rtrimOff_drop : ∀ x y : List Char,
    rtrimOff (x.drop (rtrimOff x y)) (y.drop (rtrimOff x y)) = 0 := by
  intro x
  induction x with
  | nil => intro y; cases y <;> rfl
  | cons xh xs ih =>
    intro y
    cases y with
    | nil => rfl
    | cons yh ys =>
      by_cases hc : cIsAlpha xh = true ∧ cToUpper xh = cToUpper yh
      · rw [show rtrimOff (xh :: xs) (yh :: ys) = 1 + rtrimOff xs ys from by
          simp only [rtrimOff]
          rw [if_pos hc]]
        have hd1 : (xh :: xs).drop (1 + rtrimOff xs ys) = xs.drop (rtrimOff xs ys) := by
          rw [Nat.add_comm]
          rfl
        have hd2 : (yh :: ys).drop (1 + rtrimOff xs ys) = ys.drop (rtrimOff xs ys) := by
          rw [Nat.add_comm]
          rfl
        rw [hd1, hd2]
        exact ih ys
      · rw [show rtrimOff (xh :: xs) (yh :: ys) = 0 from by
          simp only [rtrimOff]; rw [if_neg hc]]
        simp only [List.drop_zero, rtrimOff]
        rw [if_neg hc]

theorem ltrimOff_nil_right : ∀ r : List Char, ltrimOff r [] = 0 := by
  intro r
  cases r <;> rfl

theorem ltrimOff_nil_left : ∀ a : List Char, ltrimOff [] a = 0 := by
  intro a
  cases a <;> rfl

theorem mem_takeWhile_pred (p : Char → Bool) : ∀ l : List Char, ∀ c ∈ l.takeWhile p,
    p c = true := by
  intro l
  induction l with
  | nil => simp
  | cons a t ih =>
    intro c hc
    rw [List.takeWhile_cons] at hc
    by_cases ha : p a = true
    · rw [if_pos ha] at hc
      rcases List.mem_cons.mp hc with rfl | hc
      · exact ha
      · exact ih c hc
    · rw [if_neg ha] at hc
      exact absurd hc (List.not_mem_nil c)

theorem ltrimOff_zero_take (X Y : List Char) (m k : Nat) (h : ltrimOff X Y = 0) :
    ltrimOff (X.take m) (Y.take k) = 0 := by
  cases X with
  | nil => rw [List.take_nil]; exact ltrimOff_nil_left _
  | cons x xs =>
    cases Y with
    | nil => rw [List.take_nil]; exact ltrimOff_nil_right _
    | cons y ys =>
      cases m with
      | zero => rw [List.take_zero]; exact ltrimOff_nil_left _
      | succ m =>
        cases k with
        | zero => rw [List.take_zero]; exact ltrimOff_nil_right _
        | succ k =>
          rw [List.take_succ_cons, List.take_succ_cons]
          simp only [ltrimOff] at h ⊢
          by_cases hc : cIsAlpha y = true ∧ cToUpper y = cToUpper x
          · rw [if_pos hc] at h; omega
          · rw [if_neg hc]

theorem reverse_take_sub (l : List Char) (k : Nat) (hk : k ≤ l.length) :
    (l.take (l.length - k)).reverse = l.reverse.drop k := by
  rw [List.reverse_take, Nat.sub_sub_self hk]

/-- Evaluation of bgt_al_parse on a well-formed four-field input with a
nonempty alphabetic literal REF part: it reaches the literal branch and
produces the trimmed allele. -/
theorem bgt_al_parse_literal (chr digits rl alt : List Char)
    (hchr : ∀ c ∈ chr, (c != ':') = true)
    (hdig : ∀ c ∈ digits, cIsDigit c = true) (hdne : digits ≠ [])
    (hrl : ∀ c ∈ rl, cIsAlpha c = true) (hrne : rl ≠ []) :
    bgt_al_parse (chr ++ ':' :: (digits ++ ':' :: (rl ++ ':' :: alt))) =
      some ⟨chr, (digitsVal digits : Int) - 1 + ltrimOff rl alt,
        rl.length - ltrimOff rl alt -
          rtrimOff ((rl.drop (ltrimOff rl alt)).reverse)
            ((alt.drop (ltrimOff rl alt)).reverse),
        (alt.drop (ltrimOff rl alt)).take
          ((alt.drop (ltrimOff rl alt)).length -
            rtrimOff ((rl.drop (ltrimOff rl alt)).reverse)
              ((alt.drop (ltrimOff rl alt)).reverse)),
        some ((rl.drop (ltrimOff rl alt)).take
          ((rl.drop (ltrimOff rl alt)).length -
            rtrimOff ((rl.drop (ltrimOff rl alt)).reverse)
              ((alt.drop (ltrimOff rl alt)).reverse)))⟩ := by
  obtain ⟨d, ds, hdigits⟩ := List.exists_cons_of_ne_nil hdne
  obtain ⟨x, xs, hrlc⟩ := List.exists_cons_of_ne_nil hrne
  subst hdigits
  subst hrlc
  have hd : cIsDigit d = true := hdig d (by simp)
  have hx : cIsAlpha x = true := hrl x (by simp)
  have hxd : cIsDigit x = false := cIsAlpha_not_digit x hx
  have h1 := takeWhile_app (fun c => c != ':') chr ':'
    ((d :: ds) ++ ':' :: ((x :: xs) ++ ':' :: alt)) hchr (by decide)
  have h2 := takeWhile_app (fun c => cIsDigit c) (d :: ds) ':'
    ((x :: xs) ++ ':' :: alt) hdig (by decide)
  have h3 := takeWhile_app (fun c => cIsAlpha c) (x :: xs) ':' alt hrl (by decide)
  simp only [List.cons_append] at h1 h2 h3 ⊢
  simp only [bgt_al_parse, h1.1, h1.2, h2.1, h2.2, h3.1, h3.2, hd, hx, hxd,
    if_true, Bool.false_eq_true, if_false, reduceCtorEq, reduceIte]

/-- C9 counterexample: the parser accepts the insertion shorthand
c:1:A:AC, trimming it to pos 1, rlen 0, ALT C with an empty trimmed
REF; its serialization chr:(pos+1):REF:ALT is c:2::C, whose third field
is empty - neither a digit run nor a literal - so re-parsing fails
instead of returning the identical result. -/
theorem C9_empty_ref_counterexample :
    bgt_al_parse ("c:1:A:AC".toList) =
      some ⟨"c".toList, 1, 0, "C".toList, some []⟩ ∧
    alSer ("c".toList) 2 [] ("C".toList) = "c:2::C".toList ∧
    bgt_al_parse ("c:2::C".toList) = none := by
  refine ⟨by decide, by decide, by decide⟩

/-- C9 amended: every accepted shorthand with a literal REF part parses
to a fully trimmed allele - re-running the left-trim or right-trim loop
on the stored (REF, ALT) removes nothing - and, whenever the trimmed
REF is nonempty, re-parsing the serialization chr:(pos+1):REF:ALT
returns the identical result.  When the trimmed REF is empty the
serialization has an empty third field and re-parsing fails (see the
counterexample), so the claim's unrestricted fixed point does not hold. -/
theorem C9_trimmed_and_fixed_point (al : List Char) (f : AlFull) (r : List Char)
    (hp : bgt_al_parse al = some f) (hr : f.ref = some r) :
    (ltrimOff r f.alt = 0 ∧ rtrimOff r.reverse f.alt.reverse = 0) ∧
    (r ≠ [] →
      bgt_al_parse (alSer f.chr (f.pos + 1).toNat r f.alt) = some f) := by
  unfold bgt_al_parse at hp
  split at hp
  next => exact Option.noConfusion hp
  next c0 p1 heq1 =>
    split at hp
    next => exact Option.noConfusion hp
    next d dtail =>
      split at hp
      next hd =>
        split at hp
        next => exact Option.noConfusion hp
        next s2 p2 heq3 =>
          split at hp
          next hs2 =>
            split at hp
            next => exact Option.noConfusion hp
            next e etail =>
              split at hp
              next he =>
                split at hp
                next => exact Option.noConfusion hp
                next s3 alt0 heq5 =>
                  split at hp
                  next hs3 =>
                    have hf := Option.some_inj.mp hp
                    rw [← hf] at hr
                    exact Option.noConfusion hr
                  next => exact Option.noConfusion hp
              next he =>
                split at hp
                next halpha =>
                  split at hp
                  next => exact Option.noConfusion hp
                  next s3 alt0 heq5 =>
                    split at hp
                    next hs3 =>
                      have hf := Option.some_inj.mp hp
                      subst hf
                      dsimp only at hr
                      have hrr := Option.some_inj.mp hr
                      subst hrr
                      clear hr hp
                      dsimp only
                      set posv := digitsVal ((d :: dtail).takeWhile fun c => cIsDigit c)
                        with hposv
                      set r0 := (e :: etail).takeWhile (fun c => cIsAlpha c) with hr0def
                      set off := ltrimOff r0 alt0 with hoffdef
                      set rr := r0.drop off with hrrdef
                      set alt1 := alt0.drop off with halt1def
                      set off2 := rtrimOff rr.reverse alt1.reverse with hoff2def
                      set R := rr.take (rr.length - off2) with hRdef
                      set A := alt1.take (alt1.length - off2) with hAdef
                      have hr0alpha : ∀ c ∈ r0, cIsAlpha c = true := by
                        intro c hc
                        rw [hr0def] at hc
                        exact mem_takeWhile_pred (fun c => cIsAlpha c) (e :: etail) c hc
                      have hlt0 : ltrimOff rr alt1 = 0 := by
                        rw [hrrdef, halt1def, hoffdef]
                        exact ltrimOff_drop r0 alt0
                      have hL0 : ltrimOff R A = 0 := by
                        rw [hRdef, hAdef]
                        exact ltrimOff_zero_take rr alt1 _ _ hlt0
                      have hb1 : off2 ≤ rr.length := by
                        rw [hoff2def, ← List.length_reverse rr]
                        exact rtrimOff_le_left _ _
                      have hb2 : off2 ≤ alt1.length := by
                        rw [hoff2def, ← List.length_reverse alt1]
                        exact rtrimOff_le_right _ _
                      have hRrev : R.reverse = rr.reverse.drop off2 := by
                        rw [hRdef]
                        exact reverse_take_sub rr off2 hb1
                      have hArev : A.reverse = alt1.reverse.drop off2 := by
                        rw [hAdef]
                        exact reverse_take_sub alt1 off2 hb2
                      have hR0 : rtrimOff R.reverse A.reverse = 0 := by
                        rw [hRrev, hArev, hoff2def]
                        exact rtrimOff_drop rr.reverse alt1.reverse
                      refine ⟨⟨hL0, hR0⟩, ?_⟩
                      intro hne
                      have hchr : ∀ c ∈ al.takeWhile (fun c => c != ':'),
                          ((fun c => c != ':') c) = true := by
                        intro c hc
                        exact mem_takeWhile_pred (fun c => c != ':') al c hc
                      have hRalpha : ∀ c ∈ R, cIsAlpha c = true := by
                        intro c hc
                        rw [hRdef] at hc
                        have hc2 : c ∈ rr := List.mem_of_mem_take hc
                        rw [hrrdef] at hc2
                        exact hr0alpha c (List.mem_of_mem_drop hc2)
                      have htn : ((posv : Int) - 1 + (off : Int) + 1).toNat = posv + off := by
                        omega
                      rw [htn]
                      rw [show alSer (al.takeWhile fun c => c != ':') (posv + off) R A =
                          (al.takeWhile fun c => c != ':') ++ ':' ::
                            (natDigits (posv + off) ++ ':' :: (R ++ ':' :: A)) from rfl]
                      rw [bgt_al_parse_literal (al.takeWhile fun c => c != ':')
                        (natDigits (posv + off)) R A hchr (natDigits_digits _)
                        (natDigits_ne_nil _) hRalpha hne]
                      rw [natDigits_val, hL0]
                      simp only [List.drop_zero]
                      rw [hR0]
                      have e1 : ((posv + off : Nat) : Int) - 1 =
                          (posv : Int) - 1 + (off : Int) := by
                        push_cast
                        ring
                      rw [e1]
                      simp only [Nat.sub_zero]
                      rw [List.take_length, List.take_length]
                      have hRlen : R.length = r0.length - off - off2 := by
                        rw [hRdef, List.length_take, hrrdef, List.length_drop]
                        omega
                      rw [hRlen]
                      simp only [Nat.cast_zero, add_zero]
                    next => exact Option.noConfusion hp
                next => exact Option.noConfusion hp
          next => exact Option.noConfusion hp
      next => exact Option.noConfusion hp

/-- C9 witness: the amended theorem at the accepted input
chr1:100:AT:G, already in shortest form: the trims remove nothing and
re-parsing the serialization chr1:100:AT:G returns the identical
result. -/
theorem C9_trimmed_and_fixed_point_witness :
    (ltrimOff ("AT".toList) ("G".toList) = 0 ∧
      rtrimOff ("AT".toList).reverse ("G".toList).reverse = 0) ∧
    ("AT".toList ≠ [] →
      bgt_al_parse (alSer ("chr1".toList) ((99 : Int) + 1).toNat ("AT".toList)
        ("G".toList)) = some ⟨"chr1".toList, 99, 2, "G".toList, some ("AT".toList)⟩) :=
  C9_trimmed_and_fixed_point ("chr1:100:AT:G".toList)
    ⟨"chr1".toList, 99, 2, "G".toList, some ("AT".toList)⟩ ("AT".toList)
    (by decide) rfl

end BgtSpec
